import Mathlib

/-!
Shallow embedding of `src/robot/libdocpkg/model.py` (Robot Framework libdoc
documentation model) and proofs about the claims of its specification.

Modelling conventions:
* Python strings are `List Char` (`Str`); only `'\n'`, `'\r\n'` and `'\r'`
  are treated as line boundaries by `pySplitlines` (the common cases of
  `str.splitlines`), and `\s` is the ASCII whitespace set of
  `string.whitespace`.
* Python exceptions are `Except PyErr`; a constructor that raises returns
  `Except.error` and no partially built value.
* Object identity of a `LibraryDoc` is modelled by an explicit `id` field;
  the `parent` back-reference of a `KeywordDoc` stores that id.
* Values rendered through `robot.utils.unicode` / `unic` (enum member
  values, field annotations) are carried in already-rendered textual form.
-/

namespace Libdoc

/-- Python strings, modelled as lists of characters. -/
abbrev Str := List Char

/-- ASCII whitespace, the characters of Python's `string.whitespace`
(` `, `\t`, `\n`, `\r`, `\x0b`, `\x0c`); used both for `str.strip` and for
the regex class `\s`. -/
def isSpace (c : Char) : Bool :=
  c = ' ' || c = '\t' || c = '\n' || c = '\r' || c = '\x0b' || c = '\x0c'

/-- `str.strip()`: remove leading and trailing whitespace. -/
def strip (s : Str) : Str :=
  ((s.dropWhile isSpace).reverse.dropWhile isSpace).reverse

/-- `str.lower()` (ASCII case folding, as `Char.toLower`). -/
def lower (s : Str) : Str := s.map Char.toLower

/-- Worker for `pySplitlines`: `cur` is the current line accumulated in
reverse. A line ends at `\n`, `\r\n` or `\r`; a trailing boundary yields no
final empty line. -/
def splitlinesGo (cur : Str) : Str → List Str
  | [] => if cur = [] then [] else [cur.reverse]
  | '\n' :: rest => cur.reverse :: splitlinesGo [] rest
  | '\r' :: '\n' :: rest => cur.reverse :: splitlinesGo [] rest
  | '\r' :: rest => cur.reverse :: splitlinesGo [] rest
  | c :: rest => splitlinesGo (c :: cur) rest

/-- `str.splitlines()` restricted to the `\n` / `\r\n` / `\r` boundaries:
`"a\nb" ↦ ["a", "b"]`, a trailing boundary produces no empty final line,
and the empty string has no lines. -/
def pySplitlines (s : Str) : List Str := splitlinesGo [] s

/-- `'\n'.join(lines)`. -/
def joinN (ls : List Str) : Str :=
  match ls with
  | [] => []
  | [l] => l
  | l :: rest => l ++ '\n' :: joinN rest

/-- `' '.join(lines)`. -/
def joinSp (ls : List Str) : Str :=
  match ls with
  | [] => []
  | [l] => l
  | l :: rest => l ++ ' ' :: joinSp rest

/-- Python substring membership `needle in haystack`. -/
def isSubstr (needle hay : Str) : Bool :=
  match hay with
  | [] => needle.isPrefixOf ([] : Str)
  | _ :: rest => needle.isPrefixOf hay || isSubstr needle rest

/-- Lexicographic `<=` on strings by code point, as Python compares
`str` values. -/
def lexLe : Str → Str → Bool
  | [], _ => true
  | _ :: _, [] => false
  | a :: as, b :: bs =>
    if a.toNat = b.toNat then lexLe as bs else decide (a.toNat < b.toNat)

/-! ## Type descriptors (`EnumDoc`, `TypedDictDoc`) -/

/-- One member of a serialized enumeration: the `{'name': ..., 'value': ...}`
dictionaries stored in `EnumDoc.members`; the value is kept in its rendered
textual form (`unicode(member.value)`). -/
structure EnumMember where
  name : Str
  value : Str
deriving DecidableEq, Repr

/-- The attributes of `EnumDoc` after construction. -/
structure EnumDoc where
  name : Str
  super : Str
  doc : Str
  members : List EnumMember
deriving DecidableEq, Repr

/-- The attributes of `TypedDictDoc` after construction. `items` is an
insertion-ordered string-to-string mapping. -/
structure TypedDictDoc where
  name : Str
  super : Str
  doc : Str
  items : List (Str × Str)
  required_keys : List Str
  optional_keys : List Str
deriving DecidableEq, Repr

/-- A Python `dict` as the descriptor constructors consume it: presence or
absence of each key the code ever looks up (`name`, `super`, `doc`,
`members`, `items`, `required_keys`, `optional_keys`). An absent key is
`Option.none`. -/
structure TypeInfoDict where
  name : Option Str := Option.none
  super : Option Str := Option.none
  doc : Option Str := Option.none
  members : Option (List EnumMember) := Option.none
  items : Option (List (Str × Str)) := Option.none
  required_keys : Option (List Str) := Option.none
  optional_keys : Option (List Str) := Option.none
deriving DecidableEq, Repr

/-- Python exceptions raised by the modelled code. -/
inductive PyErr where
  | keyError (key : String)
  | attributeError
deriving DecidableEq, Repr

/-- `d[key]`: a lookup that raises `KeyError` when the key is absent. -/
def getKey (v : Option α) (key : String) : Except PyErr α :=
  match v with
  | some x => Except.ok x
  | Option.none => Except.error (PyErr.keyError key)

/-- A field annotation of a TypedDict class: `value.__name__` is used when
the annotation is a class, otherwise its rendering `unic(value)`. -/
inductive AnnotVal where
  | cls (name : Str)
  | other (rendering : Str)
deriving DecidableEq, Repr

/-- `value.__name__ if isclass(value) else unic(value)`. -/
def annotText : AnnotVal → Str
  | AnnotVal.cls n => n
  | AnnotVal.other r => r

/-- The values a type reference can take where the code dispatches on its
runtime type. Class objects record the data the code reads off them:

* `enumClass`: a class, `issubclass(•, Enum)`, metaclass `EnumMeta`
  (so `type(•) is not type`), not a `TypedDictType` instance; carries
  `__name__`, `__doc__` and `_member_map_` with rendered member values.
* `typedDictClass`: a class, `isinstance(•, TypedDictType)`, metaclass
  `_TypedDictMeta` (not `type`); carries `__name__`, `__doc__`,
  `__annotations__`, `__required_keys__`, `__optional_keys__` (the two key
  sets in the order `list(...)` produces).
* `plainClass`: a class with the default metaclass (`type(•) is type`),
  neither an enumeration nor a TypedDict.
* `customMetaClass`: a class with a metaclass other than `type` that is
  neither an enumeration nor a TypedDict.
* `pyDict`: a dictionary.
* `pyStr`: a string.
* `descEnum` / `descTypedDict`: an already-normalized descriptor instance.

`typing_extensions` is taken as importable, so `TypedDictType` is truthy. -/
inductive TypeInfo where
  | enumClass (name : Str) (doc : Option Str) (memberMap : List (Str × Str))
  | typedDictClass (name : Str) (doc : Option Str)
      (annots : List (Str × AnnotVal)) (reqKeys optKeys : List Str)
  | plainClass (name : Str)
  | customMetaClass (name : Str)
  | pyDict (d : TypeInfoDict)
  | pyStr (s : Str)
  | descEnum (e : EnumDoc)
  | descTypedDict (t : TypedDictDoc)
deriving DecidableEq, Repr

/-- `x if x else ''` for an optional docstring (`__doc__`). -/
def docOrEmpty (d : Option Str) : Str :=
  match d with
  | some s => s
  | Option.none => []

/-- Insert into an insertion-ordered mapping as Python `d[k] = v` does:
update in place when the key exists, else append. -/
def mapSet (m : List (Str × α)) (k : Str) (v : α) : List (Str × α) :=
  match m with
  | [] => [(k, v)]
  | (k0, v0) :: rest =>
    if k0 = k then (k0, v) :: rest else (k0, v0) :: mapSet rest k v

/-- `TypedDictDoc.__init__(type_info=None, *, name='', super='', doc='',
items=None, required_keys=None, optional_keys=None)`.  The keyword-argument
defaults are applied first, then `type_info` (when it is a dict, a
TypedDict class, or another `TypedDictDoc`) overwrites every attribute; a
dict missing a looked-up key raises `KeyError` and no object is produced. -/
def TypedDictDoc.construct (type_info : Option TypeInfo)
    (name : Str := []) (super : Str := []) (doc : Str := [])
    (items : Option (List (Str × Str)) := Option.none)
    (required_keys : Option (List Str) := Option.none)
    (optional_keys : Option (List Str) := Option.none) :
    Except PyErr TypedDictDoc := do
  let base : TypedDictDoc :=
    { name := name, super := super, doc := doc,
      items := items.getD [], required_keys := required_keys.getD [],
      optional_keys := optional_keys.getD [] }
  match type_info with
  | some (TypeInfo.pyDict d) => do
    let n ← getKey d.name "name"
    let s ← getKey d.super "super"
    let dc ← getKey d.doc "doc"
    let it ← getKey d.items "items"
    let rk ← getKey d.required_keys "required_keys"
    let ok ← getKey d.optional_keys "optional_keys"
    pure { name := n, super := s, doc := dc, items := it,
           required_keys := rk, optional_keys := ok }
  | some (TypeInfo.typedDictClass n dc annots rk ok) =>
    pure { name := n, super := "TypedDict".toList, doc := docOrEmpty dc,
           items := annots.foldl (fun m kv => mapSet m kv.1 (annotText kv.2))
             base.items,
           required_keys := rk, optional_keys := ok }
  | some (TypeInfo.descTypedDict t) => pure t
  | _ => pure base

/-- `EnumDoc.__init__(type_info=None, *, name='', super='', doc='',
members=None)`, with the same structure as `TypedDictDoc.construct`.  For
an enumeration class, members are appended to the `members` list in
declaration order with rendered values. -/
def EnumDoc.construct (type_info : Option TypeInfo)
    (name : Str := []) (super : Str := []) (doc : Str := [])
    (members : Option (List EnumMember) := Option.none) :
    Except PyErr EnumDoc := do
  let base : EnumDoc :=
    { name := name, super := super, doc := doc, members := members.getD [] }
  match type_info with
  | some (TypeInfo.pyDict d) => do
    let n ← getKey d.name "name"
    let s ← getKey d.super "super"
    let dc ← getKey d.doc "doc"
    let ms ← getKey d.members "members"
    pure { name := n, super := s, doc := dc, members := ms }
  | some (TypeInfo.enumClass n dc mm) =>
    pure { name := n, super := "Enum".toList, doc := docOrEmpty dc,
           members := base.members ++
             mm.map (fun nv => { name := nv.1, value := nv.2 }) }
  | some (TypeInfo.descEnum e) => pure e
  | _ => pure base

/-- `TypedDictDoc.to_dictionary()`: a dict carrying exactly the keys
`name`, `super`, `doc`, `items`, `required_keys`, `optional_keys`. -/
def TypedDictDoc.to_dictionary (t : TypedDictDoc) : TypeInfoDict :=
  { name := some t.name, super := some t.super, doc := some t.doc,
    items := some t.items, required_keys := some t.required_keys,
    optional_keys := some t.optional_keys }

/-- `EnumDoc.to_dictionary()`: a dict carrying exactly the keys `name`,
`super`, `doc`, `members`. -/
def EnumDoc.to_dictionary (e : EnumDoc) : TypeInfoDict :=
  { name := some e.name, super := some e.super, doc := some e.doc,
    members := some e.members }

/-! ## The heading regex of `_create_toc`

`re.findall(r'^\s*=\s+(.+?)\s+=\s*$', doc, flags=re.MULTILINE)`, modelled
as the backtracking search CPython performs for this fixed pattern: the
greedy pieces (`\s*`, `\s+`) try longer widths first, the lazy capture
(`.+?`) tries shorter widths first, the first complete match wins, and
scanning resumes at the end of each match. `^` matches at the start of the
text or right after `'\n'`; `$` matches at the end or right before `'\n'`;
`.` matches anything but `'\n'`. -/

/-- Length of the leading run of `\s` characters. -/
def countWs : Str → Nat
  | [] => 0
  | c :: rest => if isSpace c then countWs rest + 1 else 0

/-- Length of the leading run of non-`'\n'` characters (what `.` can
consume). -/
def countNonNL : Str → Nat
  | [] => 0
  | c :: rest => if c = '\n' then 0 else countNonNL rest + 1

/-- `$` in MULTILINE mode: at the end of the text or before `'\n'`. -/
def dollarAt : Str → Bool
  | [] => true
  | c :: _ => c = '\n'

/-- First `some` result of `f` over `xs`, in order: the backtracking
engine's "first alternative that completes wins". -/
def firstSome : List α → (α → Option β) → Option β
  | [], _ => Option.none
  | x :: xs, f =>
    match f x with
    | some b => some b
    | Option.none => firstSome xs f

/-- `[n, n-1, ..., 1]`: the widths a greedy `\s+` tries, in order. -/
def countdownPos : Nat → List Nat
  | 0 => []
  | n + 1 => (n + 1) :: countdownPos n

/-- `[n, n-1, ..., 0]`: the widths a greedy `\s*` tries, in order. -/
def countdown (n : Nat) : List Nat := countdownPos n ++ [0]

/-- `[1, 2, ..., n]`: the widths a lazy `.+?` tries, in order. -/
def upFrom1 (n : Nat) : List Nat := (List.range n).map (· + 1)

/-- The trailing `\s*$` of the pattern, searched greedily: the number of
whitespace characters consumed before `$` holds, for the first (longest)
width that works. -/
def tailSearch (s6 : Str) : Option Nat :=
  firstSome (countdown (countWs s6)) fun w4 =>
    if dollarAt (s6.drop w4) then some w4 else Option.none

/-- The `\s+=\s*$` part after the capture: number of characters consumed,
greedy on the `\s+` width. -/
def closeSearch (s4 : Str) : Option Nat :=
  firstSome (countdownPos (countWs s4)) fun w3 =>
    match s4.drop w3 with
    | c :: s6 =>
      if c = '=' then (tailSearch s6).map (fun w4 => w3 + 1 + w4)
      else Option.none
    | [] => Option.none

/-- The `(.+?)\s+=\s*$` part: the capture (lazy, shortest first) and the
number of characters consumed. -/
def capSearch (s3 : Str) : Option (Str × Nat) :=
  firstSome (upFrom1 (countNonNL s3)) fun clen =>
    (closeSearch (s3.drop clen)).map (fun r => (s3.take clen, clen + r))

/-- The `\s+(.+?)\s+=\s*$` part after the opening `=`, greedy on the
`\s+` width. -/
def afterEq (s2 : Str) : Option (Str × Nat) :=
  firstSome (countdownPos (countWs s2)) fun w2 =>
    (capSearch (s2.drop w2)).map (fun p => (p.1, w2 + p.2))

/-- Attempt the pattern `\s*=\s+(.+?)\s+=\s*$` at the current position
(the caller has already checked `^`).  On success, return the capture and
the total number of characters the match consumed.  Each layer tries its
widths in the backtracking engine's order and the first full match wins. -/
def tryMatch (s : Str) : Option (Str × Nat) :=
  firstSome (countdown (countWs s)) fun w1 =>
    match s.drop w1 with
    | c :: s2 =>
      if c = '=' then (afterEq s2).map (fun p => (p.1, w1 + 1 + p.2))
      else Option.none
    | [] => Option.none

/-- All characters of a string are whitespace. -/
def allWs (m : Str) : Prop := ∀ c ∈ m, isSpace c = true

/-- The width of trailing whitespace a match's final `\s*$` consumes when
it continues into `u`: the first (largest) whitespace width after which
`$` holds, `0` if the search fails. -/
def extOf (u : Str) : Nat := (tailSearch u).getD 0

/-- The number of extra characters a match ending at the end of a line
consumes when the text continues with `'\n' :: t`: the `'\n'` itself plus
the extension into `t`, or nothing when the trailing `\s*$` cannot cross
the line break. -/
def nlExt (t : Str) : Nat :=
  match tailSearch t with
  | some e => e + 1
  | Option.none => 0

/-- The line-start flag the scan carries after consuming a block `m`
(with previous flag `b`): whether the last consumed character was a line
break. -/
def lastFlag (m : Str) (b : Bool) : Bool :=
  match m.getLast? with
  | some c => c = '\n'
  | Option.none => b

/-- The scan of `re.findall`: walk the text position by position; at a
position where `^` holds, attempt a match; on success record the capture
and resume at the match end (`skip` counts characters still to cross, and
the flag tracks whether the previous character was `'\n'`). -/
def goScan : Str → Nat → Bool → List Str
  | [], _, _ => []
  | c :: rest, skip + 1, _ => goScan rest skip (c = '\n')
  | c :: rest, 0, atLineStart =>
    if atLineStart then
      match tryMatch (c :: rest) with
      | some (cap, len) => cap :: goScan rest (len - 1) (c = '\n')
      | Option.none => goScan rest 0 (c = '\n')
    else goScan rest 0 (c = '\n')

/-- `re.findall(r'^\s*=\s+(.+?)\s+=\s*$', s, flags=re.MULTILINE)`. -/
def reFindAllHeadings (s : Str) : List Str := goScan s 0 true

/-! ## `KeywordDoc` and `LibraryDoc` -/

/-- A normalized type descriptor: what `_get_type_doc` produces. -/
inductive TypeDoc where
  | en (e : EnumDoc)
  | td (t : TypedDictDoc)
deriving DecidableEq, Repr

/-- The `name` attribute of a descriptor. -/
def TypeDoc.name : TypeDoc → Str
  | TypeDoc.en e => e.name
  | TypeDoc.td t => t.name

/-- `LibraryDoc._is_TypedDictType`. -/
def is_TypedDictType : TypeInfo → Bool
  | TypeInfo.typedDictClass _ _ _ _ _ => true
  | TypeInfo.pyDict d => d.super = some "TypedDict".toList
  | _ => false

/-- `LibraryDoc._is_EnumType`. -/
def is_EnumType : TypeInfo → Bool
  | TypeInfo.enumClass _ _ _ => true
  | TypeInfo.pyDict d => d.super = some "Enum".toList
  | _ => false

/-- `LibraryDoc._get_type_doc`: an already-normalized descriptor is
returned unchanged; a TypedDict shape builds a `TypedDictDoc`, an
enumeration shape an `EnumDoc`; anything else falls off the end of the
method and returns `None`. -/
def get_type_doc (arg_type : TypeInfo) : Except PyErr (Option TypeDoc) :=
  match arg_type with
  | TypeInfo.descEnum e => Except.ok (some (TypeDoc.en e))
  | TypeInfo.descTypedDict t => Except.ok (some (TypeDoc.td t))
  | t =>
    if is_TypedDictType t then
      (TypedDictDoc.construct (some t)).map (fun x => some (TypeDoc.td x))
    else if is_EnumType t then
      (EnumDoc.construct (some t)).map (fun x => some (TypeDoc.en x))
    else Except.ok Option.none

/-- `isinstance(x, type)`: true exactly for class objects. -/
def isinstance_type : TypeInfo → Bool
  | TypeInfo.enumClass _ _ _ => true
  | TypeInfo.typedDictClass _ _ _ _ _ => true
  | TypeInfo.plainClass _ => true
  | TypeInfo.customMetaClass _ => true
  | _ => false

/-- `type(x) is type`: the metaclass is exactly the builtin `type`. -/
def metaclass_is_type : TypeInfo → Bool
  | TypeInfo.plainClass _ => true
  | _ => false

/-- One keyword argument, as the model reads it (`arg.type`,
`arg.type_as_repr_list`). -/
structure ArgInfo where
  name : Str := []
  type : List TypeInfo := []
  type_as_repr_list : List Str := []
deriving Repr

/-- `KeywordDoc`.  `parent` stores the `id` of the owning `LibraryDoc`
(modelling the Python object reference). -/
structure KeywordDoc where
  name : Str := []
  args : List ArgInfo := []
  doc : Str := []
  _shortdoc : Str := []
  tags : List Str := []
  source : Option Str := Option.none
  lineno : Int := -1
  parent : Option Nat := Option.none
deriving Repr

/-- `LibraryDoc`, with defaults as after `__init__` (the `doc_format`
setter has normalized the default).  `id` models object identity.
`_data_types` is the insertion-ordered dict `{name: descriptor}`; its
values are `Option TypeDoc` because `_add_types_from_keyword` stores
whatever `_get_type_doc` returns, which can be `None`. -/
structure LibraryDoc where
  id : Nat := 0
  name : Str := []
  _doc : Str := []
  version : Str := []
  type : Str := "LIBRARY".toList
  scope : Str := "TEST".toList
  doc_format : Str := "ROBOT".toList
  source : Option Str := Option.none
  lineno : Int := -1
  _data_types : List (Str × Option TypeDoc) := []
  inits : List KeywordDoc := []
  keywords : List KeywordDoc := []
deriving Repr

/-- The `doc_format` setter body: `format or 'ROBOT'`. -/
def doc_format_value (format : Option Str) : Str :=
  match format with
  | Option.none => "ROBOT".toList
  | some s => if s = [] then "ROBOT".toList else s

/-- Assigning `lib.doc_format = format` through the `@setter`. -/
def LibraryDoc.set_doc_format (lib : LibraryDoc) (format : Option Str) :
    LibraryDoc :=
  { lib with doc_format := doc_format_value format }

/-- `key in dict` for the `_data_types` mapping. -/
def dtMem (m : List (Str × Option TypeDoc)) (k : Str) : Bool :=
  m.any (fun kv => kv.1 = k)

/-- `LibraryDoc._add_types_from_keyword`, acting on the `_data_types`
mapping: for every argument with a truthy `type`, for every
`(type_repr, type)` pair of `zip(arg.type_as_repr_list, arg.type)`, if the
repr is not yet a key and the type is a class whose metaclass is not
`type`, store `_get_type_doc(type)` under the repr. -/
def add_types_from_keyword (m : List (Str × Option TypeDoc))
    (kw : KeywordDoc) : Except PyErr (List (Str × Option TypeDoc)) :=
  kw.args.foldlM (fun m arg =>
    if arg.type.isEmpty then pure m
    else
      (arg.type_as_repr_list.zip arg.type).foldlM (fun m pr =>
        if !dtMem m pr.1 && isinstance_type pr.2 && !metaclass_is_type pr.2 then do
          let v ← get_type_doc pr.2
          pure (mapSet m pr.1 v)
        else pure m) m) m

/-- Modelled from the spec: `robot.utils.getshortdoc` (not part of this
repository) — the documentation's leading summary, its first paragraph:
the lines before the first blank line. -/
def getshortdoc (doc : Str) : Str :=
  joinN ((pySplitlines doc).takeWhile (fun l => !(strip l).isEmpty))

/-- `KeywordDoc._get_shortdoc`.  The HTML-to-text conversion performed by
`HtmlToText().get_shortdoc_from_html` lives outside this repository and is
passed in as `htmlToText` (modelled from the spec: "if parent's doc_format
is HTML, convert HTML to plain text first").  `parentLib` is the object
`kw.parent` resolves to (`None` when unset). -/
def KeywordDoc.get_shortdoc (htmlToText : Str → Str) (kw : KeywordDoc)
    (parentLib : Option LibraryDoc) : Str :=
  let doc :=
    match parentLib with
    | some p => if p.doc_format = "HTML".toList then htmlToText kw.doc else kw.doc
    | Option.none => kw.doc
  joinSp (pySplitlines (getshortdoc doc))

/-- The `shortdoc` property: return the stored `_shortdoc` when it is
truthy, otherwise derive it afresh from `doc` (the property itself stores
nothing). -/
def KeywordDoc.shortdoc (htmlToText : Str → Str) (kw : KeywordDoc)
    (parentLib : Option LibraryDoc) : Str :=
  if kw._shortdoc ≠ [] then kw._shortdoc
  else KeywordDoc.get_shortdoc htmlToText kw parentLib

/-- `KeywordDoc.generate_shortdoc`: derive and store the shortdoc when no
truthy value is stored yet. -/
def KeywordDoc.generate_shortdoc (htmlToText : Str → Str) (kw : KeywordDoc)
    (parentLib : Option LibraryDoc) : KeywordDoc :=
  if kw._shortdoc = [] then
    { kw with _shortdoc := KeywordDoc.get_shortdoc htmlToText kw parentLib }
  else kw

/-- The `deprecated` property:
`doc.startswith('*DEPRECATED') and '*' in doc[1:]`. -/
def KeywordDoc.deprecated (kw : KeywordDoc) : Bool :=
  "*DEPRECATED".toList.isPrefixOf kw.doc && (kw.doc.drop 1).contains '*'

/-- `KeywordDoc._sort_key`: the case-insensitive name. -/
def KeywordDoc.sort_key (kw : KeywordDoc) : Str := lower kw.name

/-- `LibraryDoc._sort_keywords`: for each keyword in order, register its
argument types, set its parent to this library, eagerly generate its
shortdoc; then return the updated library state together with the keywords
sorted by the case-insensitive name key.  Python's `sorted` is stable and
`List.insertionSort` with this relation performs the same stable sort. -/
def LibraryDoc.sort_keywords (htmlToText : Str → Str) (lib : LibraryDoc)
    (kws : List KeywordDoc) :
    Except PyErr (LibraryDoc × List KeywordDoc) := do
  let step ← kws.foldlM
    (fun (acc : List (Str × Option TypeDoc) × List KeywordDoc) kw => do
      let m ← add_types_from_keyword acc.1 kw
      let kw := { kw with parent := some lib.id }
      let kw := KeywordDoc.generate_shortdoc htmlToText kw
        (some { lib with _data_types := m })
      pure (m, acc.2 ++ [kw]))
    (lib._data_types, [])
  pure ({ lib with _data_types := step.1 },
    List.insertionSort (fun a b => lexLe a.sort_key b.sort_key) step.2)

/-- Assigning `lib.keywords = kws` through the `@setter`. -/
def LibraryDoc.set_keywords (htmlToText : Str → Str) (lib : LibraryDoc)
    (kws : List KeywordDoc) : Except PyErr LibraryDoc := do
  let s ← LibraryDoc.sort_keywords htmlToText lib kws
  pure { s.1 with keywords := s.2 }

/-- Assigning `lib.inits = inits` through the `@setter`. -/
def LibraryDoc.set_inits (htmlToText : Str → Str) (lib : LibraryDoc)
    (inits : List KeywordDoc) : Except PyErr LibraryDoc := do
  let s ← LibraryDoc.sort_keywords htmlToText lib inits
  pure { s.1 with inits := s.2 }

/-- A Python list comprehension `[f(x) for x in xs]` over code that can
raise: elements are produced left to right and the first exception
propagates. -/
def exceptMapList (f : α → Except PyErr β) : List α → Except PyErr (List β)
  | [] => Except.ok []
  | a :: as => do
    let b ← f a
    let bs ← exceptMapList f as
    pure (b :: bs)

/-- The keying step of the outer comprehension of the `data_types` setter:
`(t.name, t)`, where `t.name` on `None` raises `AttributeError`. -/
def typeDocPair : Option TypeDoc → Except PyErr (Str × TypeDoc)
  | some td => Except.ok (TypeDoc.name td, td)
  | Option.none => Except.error PyErr.attributeError

/-- Assigning `lib.data_types = data_types` through the `@setter`:
normalize every element with `_get_type_doc` (the inner comprehension,
which may raise while constructing from a malformed dict), then build a
dict keyed by `t.name` — where `t.name` on the `None` returned for an
unrecognized type raises `AttributeError`. -/
def LibraryDoc.set_data_types (lib : LibraryDoc)
    (data_types : List TypeInfo) : Except PyErr LibraryDoc := do
  let tds ← exceptMapList get_type_doc data_types
  let pairs ← exceptMapList typeDocPair tds
  pure { lib with
    _data_types := pairs.foldl (fun m kv => mapSet m kv.1 (some kv.2)) [] }

/-- `LibraryDoc._create_toc`: the regex captures over the whole text, then
`Importing` when any inits exist, then always `Keywords` and `Data types`,
one line per entry wrapped in inline-code markup. -/
def LibraryDoc.create_toc (lib : LibraryDoc) (doc : Str) : Str :=
  let entries := reFindAllHeadings doc
    ++ (if lib.inits.isEmpty then [] else ["Importing".toList])
    ++ ["Keywords".toList, "Data types".toList]
  joinN (entries.map (fun e => "- `".toList ++ e ++ "`".toList))

/-- `LibraryDoc._add_toc`: replace every line whose stripped content is
`%TOC%` by the TOC block, leaving other lines unchanged. -/
def LibraryDoc.add_toc (lib : LibraryDoc) (doc : Str) : Str :=
  let toc := LibraryDoc.create_toc lib doc
  joinN ((pySplitlines doc).map (fun line =>
    if strip line ≠ "%TOC%".toList then line else toc))

/-- The `doc` property: expand the TOC only for ROBOT format when `%TOC%`
occurs in the raw text. -/
def LibraryDoc.doc (lib : LibraryDoc) : Str :=
  if lib.doc_format = "ROBOT".toList && isSubstr "%TOC%".toList lib._doc then
    LibraryDoc.add_toc lib lib._doc
  else lib._doc

/-! ## Derived forms and spec-side definitions used to state the claims -/

/-- The descriptor `_get_type_doc` yields for a class object passing the
metaclass guard of `_add_types_from_keyword`; construction from a class
never raises.  A class that is neither an enumeration nor a TypedDict
yields `None`. -/
def class_type_doc : TypeInfo → Option TypeDoc
  | TypeInfo.enumClass n d mm =>
    some (TypeDoc.en
      { name := n, super := "Enum".toList, doc := docOrEmpty d,
        members := mm.map (fun nv => { name := nv.1, value := nv.2 }) })
  | TypeInfo.typedDictClass n d annots rk ok =>
    some (TypeDoc.td
      { name := n, super := "TypedDict".toList, doc := docOrEmpty d,
        items := annots.foldl (fun m kv => mapSet m kv.1 (annotText kv.2)) [],
        required_keys := rk, optional_keys := ok })
  | _ => Option.none

/-- Pure form of `add_types_from_keyword`; they agree because only class
objects pass the guard and their normalization never raises. -/
def atkPure (m : List (Str × Option TypeDoc)) (kw : KeywordDoc) :
    List (Str × Option TypeDoc) :=
  kw.args.foldl (fun m arg =>
    if arg.type.isEmpty then m
    else
      (arg.type_as_repr_list.zip arg.type).foldl (fun m pr =>
        if !dtMem m pr.1 && isinstance_type pr.2 && !metaclass_is_type pr.2 then
          mapSet m pr.1 (class_type_doc pr.2)
        else m) m) m

/-- The `(display name, type reference)` pairs the keyword scan visits,
in order. -/
def kwPairs (kw : KeywordDoc) : List (Str × TypeInfo) :=
  kw.args.foldl (fun acc arg =>
    acc ++ (if arg.type.isEmpty then []
            else arg.type_as_repr_list.zip arg.type)) []

/-- Pure form of `_sort_keywords`. -/
def skPure (htmlToText : Str → Str) (lib : LibraryDoc)
    (kws : List KeywordDoc) : LibraryDoc × List KeywordDoc :=
  let step := kws.foldl
    (fun (acc : List (Str × Option TypeDoc) × List KeywordDoc) kw =>
      let m := atkPure acc.1 kw
      let kw := { kw with parent := some lib.id }
      let kw := KeywordDoc.generate_shortdoc htmlToText kw
        (some { lib with _data_types := m })
      (m, acc.2 ++ [kw]))
    (lib._data_types, [])
  ({ lib with _data_types := step.1 },
    List.insertionSort (fun a b => lexLe a.sort_key b.sort_key) step.2)

/-- The guard predicate a scanned pair must pass to register a type
under display name `r` on the keyword-scan path. -/
def regHit (r : Str) (pr : Str × TypeInfo) : Bool :=
  decide (pr.1 = r) && isinstance_type pr.2 && !metaclass_is_type pr.2

/-- The spec's per-line reading of the heading pattern: the capture
produced when the pattern is applied to one line in isolation. -/
def lineHeading (l : Str) : Option Str := (tryMatch l).map (fun x => x.1)

/-- The spec's heading collection: scan the text line by line, keeping
each line's heading in order of appearance. -/
def specHeadings (doc : Str) : List Str :=
  (pySplitlines doc).filterMap lineHeading

/-- The TOC entry list claimed by the spec: all section headings in order
of appearance, then `Importing` if there is at least one init, then
`Keywords` and `Data types`. -/
def claimTocEntries (doc : Str) (hasInits : Bool) : List Str :=
  specHeadings doc ++ (if hasInits then ["Importing".toList] else [])
    ++ ["Keywords".toList, "Data types".toList]

/-- Render an entry list the way the TOC block renders its entries. -/
def renderTocEntries (entries : List Str) : Str :=
  joinN (entries.map (fun e => "- `".toList ++ e ++ "`".toList))

/-- The document output the claim describes: every line whose stripped
content is `%TOC%` replaced by the identical rendered block, all other
lines unchanged. -/
def claimDocOutput (doc : Str) (hasInits : Bool) : Str :=
  joinN ((pySplitlines doc).map (fun line =>
    if strip line ≠ "%TOC%".toList then line
    else renderTocEntries (claimTocEntries doc hasInits)))




/-- Claim C1: for every `EnumDoc` and every `TypedDictDoc`, feeding
`to_dictionary()` back into the dictionary branch of the three-way
constructor reproduces a descriptor equal to the original in every
attribute. -/
theorem c1_to_dictionary_roundtrip :
    (∀ e : EnumDoc,
      EnumDoc.construct (some (TypeInfo.pyDict (EnumDoc.to_dictionary e)))
        = Except.ok e) ∧
    (∀ t : TypedDictDoc,
      TypedDictDoc.construct
          (some (TypeInfo.pyDict (TypedDictDoc.to_dictionary t)))
        = Except.ok t) := by
  exact ⟨fun e => rfl, fun t => rfl⟩

/-- Claim C9: constructing a descriptor from a dictionary fails (with a
propagated lookup error, hence no partially built descriptor) exactly when
one of its required keys is missing, and every such failure is a
`KeyError`. -/
theorem c9_missing_key_is_fatal (d : TypeInfoDict) :
    ((EnumDoc.construct (some (TypeInfo.pyDict d))).isOk = false ↔
      d.name = Option.none ∨ d.super = Option.none ∨ d.doc = Option.none ∨
        d.members = Option.none) ∧
    ((TypedDictDoc.construct (some (TypeInfo.pyDict d))).isOk = false ↔
      d.name = Option.none ∨ d.super = Option.none ∨ d.doc = Option.none ∨
        d.items = Option.none ∨ d.required_keys = Option.none ∨
        d.optional_keys = Option.none) ∧
    (∀ err, EnumDoc.construct (some (TypeInfo.pyDict d)) = Except.error err →
      ∃ k, err = PyErr.keyError k) ∧
    (∀ err, TypedDictDoc.construct (some (TypeInfo.pyDict d)) = Except.error err →
      ∃ k, err = PyErr.keyError k) := by
  obtain ⟨n, s, dc, ms, it, rk, ok⟩ := d
  refine ⟨?_, ?_, ?_, ?_⟩ <;>
    cases n <;> cases s <;> cases dc <;> cases ms <;> cases it <;>
      cases rk <;> cases ok <;>
    simp [EnumDoc.construct, TypedDictDoc.construct, getKey, Except.isOk,
      Except.toBool, Except.bind, bind, pure, Except.pure]

/-- Claim C6: `deprecated` is true iff `doc` starts with the literal text
`*DEPRECATED` and a `*` character appears somewhere after position 0 of
`doc`; in particular for the three documented examples. -/
theorem c6_deprecated_detection (kw : KeywordDoc) :
    (KeywordDoc.deprecated kw = true ↔
      (∃ rest, kw.doc = "*DEPRECATED".toList ++ rest) ∧ '*' ∈ kw.doc.drop 1) ∧
    KeywordDoc.deprecated { doc := "*DEPRECATED* use X instead".toList } = true ∧
    KeywordDoc.deprecated { doc := "*DEPRECATED".toList } = false ∧
    KeywordDoc.deprecated { doc := "Not deprecated".toList } = false := by
  refine ⟨?_, by decide, by decide, by decide⟩
  simp only [KeywordDoc.deprecated, Bool.and_eq_true]
  constructor
  · rintro ⟨h1, h2⟩
    obtain ⟨t, ht⟩ := List.isPrefixOf_iff_prefix.mp h1
    exact ⟨⟨t, ht.symm⟩, by simpa using h2⟩
  · rintro ⟨⟨rest, hr⟩, h2⟩
    exact ⟨List.isPrefixOf_iff_prefix.mpr ⟨rest, hr.symm⟩, by simpa using h2⟩

/-- Claim C8: assigning any value to `doc_format` stores ROBOT when the
value is unset (`None`) or empty, and the value unchanged otherwise, so
the stored format is never empty; the setter is total, so no error is
raised for a missing format. -/
theorem c8_doc_format_never_empty (lib : LibraryDoc) (v : Option Str) (s : Str) :
    LibraryDoc.set_doc_format lib Option.none
      = { lib with doc_format := "ROBOT".toList } ∧
    LibraryDoc.set_doc_format lib (some [])
      = { lib with doc_format := "ROBOT".toList } ∧
    (s ≠ [] → LibraryDoc.set_doc_format lib (some s)
      = { lib with doc_format := s }) ∧
    (LibraryDoc.set_doc_format lib v).doc_format ≠ [] := by
  refine ⟨rfl, rfl, fun hs => ?_, ?_⟩
  · simp [LibraryDoc.set_doc_format, doc_format_value, hs]
  · cases v with
    | none =>
      simp only [LibraryDoc.set_doc_format, doc_format_value]
      decide
    | some s' =>
      by_cases h : s' = [] <;>
        simp [LibraryDoc.set_doc_format, doc_format_value, h]

/-- Witness for `c8_doc_format_never_empty` at concrete inputs. -/
theorem c8_doc_format_never_empty_witness :
    ("X".toList ≠ ([] : Str)) ∧
    LibraryDoc.set_doc_format {} (some "X".toList)
      = { ({} : LibraryDoc) with doc_format := "X".toList } ∧
    (LibraryDoc.set_doc_format {} (some "X".toList)).doc_format ≠ [] := by
  have h := c8_doc_format_never_empty {} (some "X".toList) "X".toList
  exact ⟨by decide, h.2.2.1 (by decide), h.2.2.2⟩

/-- Claim C2 counterexample: with no explicitly supplied shortdoc and no
prior `generate_shortdoc` call, a first property read derives `"A."` from
`doc`, but after `doc` is mutated a second read returns the new derivation
`"B."`, not the first value — the property read caches nothing. -/
theorem c2_shortdoc_counterexample :
    KeywordDoc.shortdoc (fun s => s) ({ doc := "A.".toList } : KeywordDoc)
        Option.none = "A.".toList ∧
    KeywordDoc.shortdoc (fun s => s)
        { ({ doc := "A.".toList } : KeywordDoc) with doc := "B.".toList }
        Option.none = "B.".toList ∧
    ("B.".toList : Str) ≠ "A.".toList := by
  exact ⟨by decide, by decide, by decide⟩

/-- Claim C2 (amended): a `shortdoc` property read derives the value from
the current `doc` whenever no truthy shortdoc is stored — the read itself
caches nothing, so mutating `doc` between reads changes the result; the
value is cached only by `generate_shortdoc` (which the library invokes
eagerly at assignment) or by explicit supply, and once a non-empty value
is cached every later read returns it even if `doc` is mutated. -/
theorem c2_shortdoc_caching_amended (f : Str → Str) (kw : KeywordDoc)
    (p p' : Option LibraryDoc) (d' : Str) :
    (kw._shortdoc = [] →
      KeywordDoc.shortdoc f kw p = KeywordDoc.get_shortdoc f kw p) ∧
    ((KeywordDoc.generate_shortdoc f kw p)._shortdoc
      = if kw._shortdoc = [] then KeywordDoc.get_shortdoc f kw p
        else kw._shortdoc) ∧
    ((KeywordDoc.generate_shortdoc f kw p)._shortdoc ≠ [] →
      KeywordDoc.shortdoc f
          { KeywordDoc.generate_shortdoc f kw p with doc := d' } p'
        = (KeywordDoc.generate_shortdoc f kw p)._shortdoc) := by
  refine ⟨fun h => ?_, ?_, fun h => ?_⟩
  · simp [KeywordDoc.shortdoc, h]
  · by_cases h : kw._shortdoc = [] <;> simp [KeywordDoc.generate_shortdoc, h]
  · simp only [KeywordDoc.shortdoc]
    rw [if_pos]
    simpa using h

/-- Witness for `c2_shortdoc_caching_amended`: a concrete cached shortdoc
survives a later mutation of `doc`. -/
theorem c2_shortdoc_caching_amended_witness :
    (KeywordDoc.generate_shortdoc (fun s => s)
        ({ doc := "A.".toList } : KeywordDoc) Option.none)._shortdoc ≠ [] ∧
    KeywordDoc.shortdoc (fun s => s)
        { KeywordDoc.generate_shortdoc (fun s => s)
            ({ doc := "A.".toList } : KeywordDoc) Option.none
          with doc := "B.".toList } Option.none
      = (KeywordDoc.generate_shortdoc (fun s => s)
          ({ doc := "A.".toList } : KeywordDoc) Option.none)._shortdoc := by
  have hne : (KeywordDoc.generate_shortdoc (fun s => s)
      ({ doc := "A.".toList } : KeywordDoc) Option.none)._shortdoc ≠ [] := by
    decide
  exact ⟨hne,
    (c2_shortdoc_caching_amended (fun s => s) { doc := "A.".toList }
      Option.none Option.none "B.".toList).2.2 hne⟩

/-! ## Helper lemmas: the string order used for sorting -/

/-- `lexLe` is total. -/
theorem lexLe_total (a : Str) : ∀ b : Str, lexLe a b = true ∨ lexLe b a = true := by
  induction a with
  | nil => intro b; left; rfl
  | cons x xs ih =>
    intro b
    cases b with
    | nil => right; rfl
    | cons y ys =>
      by_cases h : x.toNat = y.toNat
      · simpa [lexLe, h] using ih ys
      · rcases Nat.lt_or_ge x.toNat y.toNat with hlt | hge
        · left; simp [lexLe, h, hlt]
        · right
          have hlt : y.toNat < x.toNat := Nat.lt_of_le_of_ne hge (fun e => h e.symm)
          have hne : ¬ y.toNat = x.toNat := fun e => h e.symm
          simp [lexLe, hne, hlt]

/-- `lexLe` is transitive. -/
theorem lexLe_trans (a : Str) : ∀ b c : Str,
    lexLe a b = true → lexLe b c = true → lexLe a c = true := by
  induction a with
  | nil => intro b c _ _; rfl
  | cons x xs ih =>
    intro b c hab hbc
    cases b with
    | nil => simp [lexLe] at hab
    | cons y ys =>
      cases c with
      | nil => simp [lexLe] at hbc
      | cons z zs =>
        by_cases hxy : x.toNat = y.toNat <;> by_cases hyz : y.toNat = z.toNat
        · have hxz : x.toNat = z.toNat := hxy.trans hyz
          simp only [lexLe, if_pos hxy] at hab
          simp only [lexLe, if_pos hyz] at hbc
          simpa [lexLe, hxz] using ih ys zs hab hbc
        · have hyz2 : y.toNat < z.toNat := by
            simpa [lexLe, hyz] using hbc
          have hxz : x.toNat < z.toNat := hxy ▸ hyz2
          simp [lexLe, Nat.ne_of_lt hxz, hxz]
        · have hxy2 : x.toNat < y.toNat := by
            simpa [lexLe, hxy] using hab
          have hxz : x.toNat < z.toNat := hyz ▸ hxy2
          simp [lexLe, Nat.ne_of_lt hxz, hxz]
        · have hxy2 : x.toNat < y.toNat := by
            simpa [lexLe, hxy] using hab
          have hyz2 : y.toNat < z.toNat := by
            simpa [lexLe, hyz] using hbc
          have hxz : x.toNat < z.toNat := Nat.lt_trans hxy2 hyz2
          simp [lexLe, Nat.ne_of_lt hxz, hxz]

/-! ## Helper lemmas: type registration -/

/-- A class object passing the metaclass guard is normalized by
`_get_type_doc` without raising, to `class_type_doc`. -/
theorem class_get_type_doc (t : TypeInfo) (h1 : isinstance_type t = true)
    (h2 : metaclass_is_type t = false) :
    get_type_doc t = Except.ok (class_type_doc t) := by
  cases t <;> simp_all [isinstance_type, metaclass_is_type, get_type_doc,
    is_TypedDictType, is_EnumType, TypedDictDoc.construct, EnumDoc.construct,
    class_type_doc, Except.map, pure, Except.pure]

/-- The inner pair loop of `_add_types_from_keyword` never raises and
agrees with its pure form. -/
theorem pairs_foldlM_eq (ps : List (Str × TypeInfo)) :
    ∀ m : List (Str × Option TypeDoc),
    (ps.foldlM (fun m pr =>
      if !dtMem m pr.1 && isinstance_type pr.2 && !metaclass_is_type pr.2 then do
        let v ← get_type_doc pr.2
        pure (mapSet m pr.1 v)
      else pure m) m : Except PyErr _)
    = Except.ok (ps.foldl (fun m pr =>
        if !dtMem m pr.1 && isinstance_type pr.2 && !metaclass_is_type pr.2 then
          mapSet m pr.1 (class_type_doc pr.2)
        else m) m) := by
  induction ps with
  | nil => intro m; rfl
  | cons p ps ih =>
    intro m
    simp only [List.foldlM_cons, List.foldl_cons]
    by_cases hg : (!dtMem m p.1 && isinstance_type p.2 && !metaclass_is_type p.2) = true
    · have h1 : isinstance_type p.2 = true := by
        simp [Bool.and_eq_true] at hg; exact hg.1.2
      have h2 : metaclass_is_type p.2 = false := by
        simp [Bool.and_eq_true, Bool.not_eq_true] at hg; exact hg.2
      rw [if_pos hg, if_pos hg, class_get_type_doc p.2 h1 h2]
      simpa [bind, Except.bind, pure, Except.pure] using ih (mapSet m p.1 (class_type_doc p.2))
    · rw [if_neg hg, if_neg hg]
      simpa [pure, Except.pure] using ih m

/-- `_add_types_from_keyword` never raises and agrees with `atkPure`. -/
theorem add_types_from_keyword_eq (kw : KeywordDoc) :
    ∀ m, add_types_from_keyword m kw = Except.ok (atkPure m kw) := by
  unfold add_types_from_keyword atkPure
  generalize kw.args = args
  induction args with
  | nil => intro m; rfl
  | cons a as ih =>
    intro m
    simp only [List.foldlM_cons, List.foldl_cons]
    by_cases ha : a.type.isEmpty
    · rw [if_pos ha, if_pos ha]
      simpa [pure, Except.pure] using ih m
    · rw [if_neg ha, if_neg ha, pairs_foldlM_eq]
      simpa [bind, Except.bind] using ih _

/-- Key membership after a `mapSet` update. -/
theorem dtMem_mapSet (k r : Str) (v : Option TypeDoc) :
    ∀ m : List (Str × Option TypeDoc),
    dtMem (mapSet m k v) r = (dtMem m r || decide (k = r)) := by
  intro m
  induction m with
  | nil => simp [mapSet, dtMem, Bool.or_comm]
  | cons kv rest ih =>
    obtain ⟨k0, v0⟩ := kv
    by_cases h : k0 = k
    · subst h
      by_cases hkr : k0 = r <;> simp [mapSet, dtMem, hkr]
    · simp only [mapSet, if_neg h, dtMem, List.any_cons] at *
      rw [ih, Bool.or_assoc]

/-- Key membership after the inner pair loop. -/
theorem dtMem_pairsFold (ps : List (Str × TypeInfo)) :
    ∀ (m : List (Str × Option TypeDoc)) (r : Str),
    dtMem (ps.foldl (fun m pr =>
      if !dtMem m pr.1 && isinstance_type pr.2 && !metaclass_is_type pr.2 then
        mapSet m pr.1 (class_type_doc pr.2)
      else m) m) r
    = (dtMem m r || ps.any (regHit r)) := by
  induction ps with
  | nil => intro m r; simp
  | cons p ps ih =>
    intro m r
    simp only [List.foldl_cons, List.any_cons]
    rw [ih]
    by_cases hg : (!dtMem m p.1 && isinstance_type p.2 && !metaclass_is_type p.2) = true
    · rw [if_pos hg, dtMem_mapSet]
      have h1 : isinstance_type p.2 = true := by
        simp [Bool.and_eq_true] at hg; exact hg.1.2
      have h2 : metaclass_is_type p.2 = false := by
        simp [Bool.and_eq_true, Bool.not_eq_true] at hg; exact hg.2
      simp [regHit, h1, h2, Bool.or_assoc, Bool.or_comm, Bool.or_left_comm]
    · rw [if_neg hg]
      by_cases h1 : isinstance_type p.2 = true
      · by_cases h2 : metaclass_is_type p.2 = false
        · have hm : dtMem m p.1 = true := by
            rcases Bool.eq_false_or_eq_true (dtMem m p.1) with ht | hf
            · exact ht
            · exact absurd (by simp [hf, h1, h2]) hg
          by_cases h3 : p.1 = r
          · rw [h3] at hm
            simp [regHit, hm]
          · simp [regHit, h3]
        · have h2t : metaclass_is_type p.2 = true := by
            simpa [Bool.not_eq_false] using h2
          simp [regHit, h2t]
      · have h1f : isinstance_type p.2 = false := by
          simpa [Bool.not_eq_true] using h1
        simp [regHit, h1f]

/-- `any` over the pair-collecting fold of `kwPairs`. -/
theorem any_kwPairs_fold (p : Str × TypeInfo → Bool) (args : List ArgInfo) :
    ∀ acc : List (Str × TypeInfo),
    (args.foldl (fun acc arg =>
      acc ++ (if arg.type.isEmpty then []
              else arg.type_as_repr_list.zip arg.type)) acc).any p
    = (acc.any p || args.any (fun arg =>
        (if arg.type.isEmpty then []
         else arg.type_as_repr_list.zip arg.type).any p)) := by
  induction args with
  | nil => intro acc; simp
  | cons a as ih =>
    intro acc
    simp only [List.foldl_cons, List.any_cons]
    rw [ih, List.any_append, Bool.or_assoc]

/-- Key membership after `atkPure`: a key appears afterwards iff it was
already present or some scanned pair registers under it. -/
theorem dtMem_atkPure (kw : KeywordDoc) (m : List (Str × Option TypeDoc))
    (r : Str) :
    dtMem (atkPure m kw) r = (dtMem m r || (kwPairs kw).any (regHit r)) := by
  unfold atkPure kwPairs
  rw [any_kwPairs_fold]
  simp only [List.any_nil, Bool.false_or]
  generalize kw.args = args
  induction args generalizing m with
  | nil => simp
  | cons a as ih =>
    simp only [List.foldl_cons, List.any_cons]
    by_cases ha : a.type.isEmpty
    · rw [if_pos ha, if_pos ha, ih]
      simp
    · rw [if_neg ha, if_neg ha, ih, dtMem_pairsFold]
      rw [Bool.or_assoc]

/-- Key membership after folding `atkPure` over a keyword list. -/
theorem dtMem_kwsFold (kws : List KeywordDoc) :
    ∀ (m : List (Str × Option TypeDoc)) (r : Str),
    dtMem (kws.foldl (fun m kw => atkPure m kw) m) r
    = (dtMem m r || kws.any (fun kw => (kwPairs kw).any (regHit r))) := by
  induction kws with
  | nil => intro m r; simp
  | cons kw kws ih =>
    intro m r
    simp only [List.foldl_cons, List.any_cons]
    rw [ih, dtMem_atkPure, Bool.or_assoc]

/-- `generate_shortdoc` does not change the parent reference. -/
theorem generate_shortdoc_parent (f : Str → Str) (kw : KeywordDoc)
    (p : Option LibraryDoc) :
    (KeywordDoc.generate_shortdoc f kw p).parent = kw.parent := by
  by_cases h : kw._shortdoc = [] <;> simp [KeywordDoc.generate_shortdoc, h]

/-- `_sort_keywords` never raises and agrees with its pure form. -/
theorem sort_keywords_eq (f : Str → Str) (lib : LibraryDoc)
    (kws : List KeywordDoc) :
    LibraryDoc.sort_keywords f lib kws = Except.ok (skPure f lib kws) := by
  unfold LibraryDoc.sort_keywords skPure
  have main : ∀ acc : List (Str × Option TypeDoc) × List KeywordDoc,
      (kws.foldlM (fun acc kw => do
          let m ← add_types_from_keyword acc.1 kw
          let kw := { kw with parent := some lib.id }
          let kw := KeywordDoc.generate_shortdoc f kw
            (some { lib with _data_types := m })
          pure (m, acc.2 ++ [kw])) acc : Except PyErr _)
      = Except.ok (kws.foldl (fun acc kw =>
          let m := atkPure acc.1 kw
          let kw := { kw with parent := some lib.id }
          let kw := KeywordDoc.generate_shortdoc f kw
            (some { lib with _data_types := m })
          (m, acc.2 ++ [kw])) acc) := by
    induction kws with
    | nil => intro acc; rfl
    | cons kw kws ih =>
      intro acc
      simp only [List.foldlM_cons, List.foldl_cons]
      rw [add_types_from_keyword_eq]
      simpa [bind, Except.bind, pure, Except.pure] using ih _
  rw [main]
  rfl

/-- First component of the `skPure` fold: the `atkPure` fold over the
original keywords. -/
theorem skPure_fold_fst (f : Str → Str) (lib : LibraryDoc)
    (kws : List KeywordDoc) :
    ∀ acc : List (Str × Option TypeDoc) × List KeywordDoc,
    (kws.foldl (fun acc kw =>
      let m := atkPure acc.1 kw
      let kw := { kw with parent := some lib.id }
      let kw := KeywordDoc.generate_shortdoc f kw
        (some { lib with _data_types := m })
      (m, acc.2 ++ [kw])) acc).1
    = kws.foldl (fun m kw => atkPure m kw) acc.1 := by
  induction kws with
  | nil => intro acc; rfl
  | cons kw kws ih => intro acc; simpa using ih _

/-- Every keyword produced by the `skPure` fold carries the library as its
parent. -/
theorem skPure_fold_parents (f : Str → Str) (lib : LibraryDoc)
    (kws : List KeywordDoc) :
    ∀ acc : List (Str × Option TypeDoc) × List KeywordDoc,
    (∀ x ∈ acc.2, x.parent = some lib.id) →
    ∀ x ∈ (kws.foldl (fun acc kw =>
      let m := atkPure acc.1 kw
      let kw := { kw with parent := some lib.id }
      let kw := KeywordDoc.generate_shortdoc f kw
        (some { lib with _data_types := m })
      (m, acc.2 ++ [kw])) acc).2, x.parent = some lib.id := by
  induction kws with
  | nil => intro acc hacc; exact hacc
  | cons kw kws ih =>
    intro acc hacc
    refine ih _ ?_
    intro x hx
    rcases List.mem_append.mp hx with hx | hx
    · exact hacc x hx
    · rcases List.mem_singleton.mp hx with rfl
      rw [generate_shortdoc_parent]

/-- `_data_types` after `skPure`. -/
theorem skPure_data_types (f : Str → Str) (lib : LibraryDoc)
    (kws : List KeywordDoc) :
    ((skPure f lib kws).1)._data_types
      = kws.foldl (fun m kw => atkPure m kw) lib._data_types := by
  unfold skPure
  simpa using skPure_fold_fst f lib kws (lib._data_types, [])

/-- The keyword list `skPure` produces is sorted by the case-insensitive
name key. -/
theorem skPure_sorted (f : Str → Str) (lib : LibraryDoc)
    (kws : List KeywordDoc) :
    List.Sorted
      (fun a b => lexLe (KeywordDoc.sort_key a) (KeywordDoc.sort_key b) = true)
      (skPure f lib kws).2 := by
  haveI ht : IsTotal KeywordDoc
      (fun a b => lexLe (KeywordDoc.sort_key a) (KeywordDoc.sort_key b) = true) :=
    ⟨fun a b => lexLe_total (KeywordDoc.sort_key a) (KeywordDoc.sort_key b)⟩
  haveI htr : IsTrans KeywordDoc
      (fun a b => lexLe (KeywordDoc.sort_key a) (KeywordDoc.sort_key b) = true) :=
    ⟨fun a b c => lexLe_trans (KeywordDoc.sort_key a) (KeywordDoc.sort_key b)
      (KeywordDoc.sort_key c)⟩
  unfold skPure
  exact List.sorted_insertionSort _ _

/-- Every keyword in the list `skPure` produces has the library as its
parent. -/
theorem skPure_parents (f : Str → Str) (lib : LibraryDoc)
    (kws : List KeywordDoc) :
    ∀ x ∈ (skPure f lib kws).2, x.parent = some lib.id := by
  intro x hx
  unfold skPure at hx
  simp only [List.mem_insertionSort] at hx
  exact skPure_fold_parents f lib kws (lib._data_types, []) (by simp) x hx

/-- Inversion of a successful `keywords` assignment. -/
theorem set_keywords_ok_eq (f : Str → Str) (lib : LibraryDoc)
    (kws : List KeywordDoc) (lib1 : LibraryDoc)
    (h : LibraryDoc.set_keywords f lib kws = Except.ok lib1) :
    lib1 = { (skPure f lib kws).1 with keywords := (skPure f lib kws).2 } := by
  unfold LibraryDoc.set_keywords at h
  rw [sort_keywords_eq] at h
  simp [bind, Except.bind, pure, Except.pure] at h
  exact h.symm

/-- Inversion of a successful `inits` assignment. -/
theorem set_inits_ok_eq (f : Str → Str) (lib : LibraryDoc)
    (inits : List KeywordDoc) (lib2 : LibraryDoc)
    (h : LibraryDoc.set_inits f lib inits = Except.ok lib2) :
    lib2 = { (skPure f lib inits).1 with inits := (skPure f lib inits).2 } := by
  unfold LibraryDoc.set_inits at h
  rw [sort_keywords_eq] at h
  simp [bind, Except.bind, pure, Except.pure] at h
  exact h.symm

/-- Claim C4: after a list of keywords is assigned to `keywords` or
`inits`, the stored sequence is sorted by case-insensitive keyword name
and every element's parent is the owning library. -/
theorem c4_assignment_sorts_and_sets_parent (f : Str → Str)
    (lib : LibraryDoc) (kws inits : List KeywordDoc) (lib1 lib2 : LibraryDoc)
    (hk : LibraryDoc.set_keywords f lib kws = Except.ok lib1)
    (hi : LibraryDoc.set_inits f lib inits = Except.ok lib2) :
    (List.Sorted
        (fun a b => lexLe (KeywordDoc.sort_key a) (KeywordDoc.sort_key b) = true)
        lib1.keywords ∧
      ∀ kw ∈ lib1.keywords, kw.parent = some lib1.id) ∧
    (List.Sorted
        (fun a b => lexLe (KeywordDoc.sort_key a) (KeywordDoc.sort_key b) = true)
        lib2.inits ∧
      ∀ kw ∈ lib2.inits, kw.parent = some lib2.id) := by
  rw [set_keywords_ok_eq f lib kws lib1 hk]
  rw [set_inits_ok_eq f lib inits lib2 hi]
  refine ⟨⟨?_, ?_⟩, ⟨?_, ?_⟩⟩
  · simpa using skPure_sorted f lib kws
  · intro kw hkw
    have hid : ((skPure f lib kws).1).id = lib.id := by
      unfold skPure; simp
    simp only [hid]
    exact skPure_parents f lib kws kw (by simpa using hkw)
  · simpa using skPure_sorted f lib inits
  · intro kw hkw
    have hid : ((skPure f lib inits).1).id = lib.id := by
      unfold skPure; simp
    simp only [hid]
    exact skPure_parents f lib inits kw (by simpa using hkw)

/-- Witness for `c4_assignment_sorts_and_sets_parent`: two concretely
assigned keywords come back sorted case-insensitively with their parent
set. -/
theorem c4_assignment_sorts_and_sets_parent_witness :
    (List.Sorted
        (fun a b => lexLe (KeywordDoc.sort_key a) (KeywordDoc.sort_key b) = true)
        ({ keywords := [{ name := "A".toList, parent := some 0 },
                        { name := "b".toList, parent := some 0 }] }
          : LibraryDoc).keywords ∧
      ∀ kw ∈ ({ keywords := [{ name := "A".toList, parent := some 0 },
                             { name := "b".toList, parent := some 0 }] }
          : LibraryDoc).keywords,
        kw.parent = some ({ keywords := [{ name := "A".toList, parent := some 0 },
                                         { name := "b".toList, parent := some 0 }] }
          : LibraryDoc).id) ∧
    (List.Sorted
        (fun a b => lexLe (KeywordDoc.sort_key a) (KeywordDoc.sort_key b) = true)
        ({} : LibraryDoc).inits ∧
      ∀ kw ∈ ({} : LibraryDoc).inits, kw.parent = some ({} : LibraryDoc).id) :=
  c4_assignment_sorts_and_sets_parent (fun s => s) {}
    [{ name := "b".toList }, { name := "A".toList }] [] _ _ rfl rfl

/-- Claim C10: keyword assignment registers a display name into
`data_types` exactly when some scanned `(display name, type)` pair has a
class object whose metaclass is not the builtin `type`; dictionary-form
descriptors, strings and already-normalized descriptor instances are not
class objects, and a plain class has metaclass `type`, so none of them is
ever registered through keyword assignment. -/
theorem c10_keyword_scan_registers_only_custom_meta_classes (f : Str → Str)
    (lib : LibraryDoc) (kws : List KeywordDoc) (lib1 : LibraryDoc) (r : Str)
    (h : LibraryDoc.set_keywords f lib kws = Except.ok lib1) :
    (dtMem lib1._data_types r = true ↔
      dtMem lib._data_types r = true ∨
        ∃ kw ∈ kws, ∃ pr ∈ kwPairs kw, pr.1 = r ∧
          isinstance_type pr.2 = true ∧ metaclass_is_type pr.2 = false) ∧
    (∀ d, isinstance_type (TypeInfo.pyDict d) = false) ∧
    (∀ s, isinstance_type (TypeInfo.pyStr s) = false) ∧
    (∀ e, isinstance_type (TypeInfo.descEnum e) = false) ∧
    (∀ t, isinstance_type (TypeInfo.descTypedDict t) = false) ∧
    (∀ n, metaclass_is_type (TypeInfo.plainClass n) = true) := by
  refine ⟨?_, fun d => rfl, fun s => rfl, fun e => rfl, fun t => rfl,
    fun n => rfl⟩
  rw [set_keywords_ok_eq f lib kws lib1 h]
  have hdt : ({ (skPure f lib kws).1 with
      keywords := (skPure f lib kws).2 } : LibraryDoc)._data_types
      = kws.foldl (fun m kw => atkPure m kw) lib._data_types := by
    simpa using skPure_data_types f lib kws
  rw [hdt, dtMem_kwsFold]
  simp only [Bool.or_eq_true, List.any_eq_true, regHit, Bool.and_eq_true,
    decide_eq_true_eq, Bool.not_eq_true']
  constructor
  · rintro (h0 | ⟨kw, hkw, pr, hpr, ⟨h1, h2⟩, h3⟩)
    · exact Or.inl h0
    · exact Or.inr ⟨kw, hkw, pr, hpr, h1, h2, h3⟩
  · rintro (h0 | ⟨kw, hkw, pr, hpr, h1, h2, h3⟩)
    · exact Or.inl h0
    · exact Or.inr ⟨kw, hkw, pr, hpr, ⟨h1, h2⟩, h3⟩

/-- Witness for `c10_keyword_scan_registers_only_custom_meta_classes`. -/
theorem c10_keyword_scan_witness :
    (dtMem (({} : LibraryDoc))._data_types "x".toList = true ↔
      dtMem (({} : LibraryDoc))._data_types "x".toList = true ∨
        ∃ kw ∈ ([] : List KeywordDoc), ∃ pr ∈ kwPairs kw, pr.1 = "x".toList ∧
          isinstance_type pr.2 = true ∧ metaclass_is_type pr.2 = false) ∧
    (∀ d, isinstance_type (TypeInfo.pyDict d) = false) ∧
    (∀ s, isinstance_type (TypeInfo.pyStr s) = false) ∧
    (∀ e, isinstance_type (TypeInfo.descEnum e) = false) ∧
    (∀ t, isinstance_type (TypeInfo.descTypedDict t) = false) ∧
    (∀ n, metaclass_is_type (TypeInfo.plainClass n) = true) :=
  c10_keyword_scan_registers_only_custom_meta_classes (fun s => s) {} [] {}
    "x".toList rfl

/-- Claim C5: two keywords referencing class types under the same display
name register exactly one descriptor — the normalization of the first
occurrence, the later one is not re-normalized — while two different
display names register two descriptors. -/
theorem c5_dedup_by_display_name (f : Str → Str) (lib : LibraryDoc)
    (nA nB r r1 r2 : Str) (t1 t2 : TypeInfo) (lib1 lib2 : LibraryDoc)
    (h0 : lib._data_types = [])
    (g11 : isinstance_type t1 = true) (g12 : metaclass_is_type t1 = false)
    (g21 : isinstance_type t2 = true) (g22 : metaclass_is_type t2 = false)
    (h1 : LibraryDoc.set_keywords f lib
      [{ name := nA, args := [{ type := [t1], type_as_repr_list := [r] }] },
       { name := nB, args := [{ type := [t2], type_as_repr_list := [r] }] }]
      = Except.ok lib1)
    (hne : r1 ≠ r2)
    (h2 : LibraryDoc.set_keywords f lib
      [{ name := nA, args := [{ type := [t1], type_as_repr_list := [r1] }] },
       { name := nB, args := [{ type := [t2], type_as_repr_list := [r2] }] }]
      = Except.ok lib2) :
    get_type_doc t1 = Except.ok (class_type_doc t1) ∧
    lib1._data_types = [(r, class_type_doc t1)] ∧
    lib2._data_types = [(r1, class_type_doc t1), (r2, class_type_doc t2)] := by
  refine ⟨class_get_type_doc t1 g11 g12, ?_, ?_⟩
  · rw [set_keywords_ok_eq f lib _ lib1 h1]
    have hdt := skPure_data_types f lib
      [{ name := nA, args := [{ type := [t1], type_as_repr_list := [r] }] },
       { name := nB, args := [{ type := [t2], type_as_repr_list := [r] }] }]
    simp only [h0] at hdt
    simpa [hdt] using by
      simp [atkPure, dtMem, mapSet, g11, g12, g21, g22]
  · rw [set_keywords_ok_eq f lib _ lib2 h2]
    have hdt := skPure_data_types f lib
      [{ name := nA, args := [{ type := [t1], type_as_repr_list := [r1] }] },
       { name := nB, args := [{ type := [t2], type_as_repr_list := [r2] }] }]
    simp only [h0] at hdt
    simpa [hdt] using by
      simp [atkPure, dtMem, mapSet, g11, g12, g21, g22, hne, Ne.symm hne]

/-- Witness for `c5_dedup_by_display_name`: two concrete enumeration
classes under one display name. -/
theorem c5_dedup_by_display_name_witness :
    get_type_doc (TypeInfo.enumClass "E1".toList Option.none [])
      = Except.ok (class_type_doc (TypeInfo.enumClass "E1".toList Option.none [])) :=
  (c5_dedup_by_display_name (fun s => s) {} "a".toList "b".toList
    "T".toList "T1".toList "T2".toList
    (TypeInfo.enumClass "E1".toList Option.none [])
    (TypeInfo.enumClass "E2".toList Option.none []) _ _
    rfl rfl rfl rfl rfl rfl (by decide) rfl).1

/-- Claim C7 counterexample: an unrecognized type reference is not
silently dropped on both registration paths.  On the `data_types`
assignment path a string raises `AttributeError` (from `t.name` on the
`None` that `_get_type_doc` returns); on the keyword-scan path a class
with a custom metaclass that matches neither shape stores a `None` entry
under its display name. -/
theorem c7_silent_drop_counterexample :
    LibraryDoc.set_data_types {} [TypeInfo.pyStr "x".toList]
      = Except.error PyErr.attributeError ∧
    (LibraryDoc.set_keywords (fun s => s) {}
        [{ args := [{ type := [TypeInfo.customMetaClass "X".toList],
                      type_as_repr_list := ["X".toList] }] }]).map
        (fun l => l._data_types)
      = Except.ok [("X".toList, (Option.none : Option TypeDoc))] := by
  exact ⟨rfl, rfl⟩

/-- If no scanned pair is a class with a custom metaclass, the pair loop
leaves the mapping unchanged. -/
theorem pairsFold_id (ps : List (Str × TypeInfo))
    (h : ∀ pr ∈ ps, ¬(isinstance_type pr.2 = true ∧ metaclass_is_type pr.2 = false)) :
    ∀ m : List (Str × Option TypeDoc),
    ps.foldl (fun m pr =>
      if !dtMem m pr.1 && isinstance_type pr.2 && !metaclass_is_type pr.2 then
        mapSet m pr.1 (class_type_doc pr.2)
      else m) m = m := by
  induction ps with
  | nil => intro m; rfl
  | cons p ps ih =>
    intro m
    have hp := h p (List.mem_cons_self p ps)
    have hg : (!dtMem m p.1 && isinstance_type p.2 && !metaclass_is_type p.2) = false := by
      by_cases h1 : isinstance_type p.2 = true
      · by_cases h2 : metaclass_is_type p.2 = false
        · exact absurd ⟨h1, h2⟩ hp
        · have h2t : metaclass_is_type p.2 = true := by
            rcases Bool.eq_false_or_eq_true (metaclass_is_type p.2) with ht | hf
            · exact ht
            · exact absurd hf h2
          simp [h2t]
      · have h1f : isinstance_type p.2 = false := by
          rcases Bool.eq_false_or_eq_true (isinstance_type p.2) with ht | hf
          · exact absurd ht h1
          · exact hf
        simp [h1f]
    simp only [List.foldl_cons, hg, Bool.false_eq_true, if_false]
    exact ih (fun pr hpr => h pr (List.mem_cons_of_mem p hpr)) m

/-- Membership in the pair-collecting fold of `kwPairs`. -/
theorem mem_kwPairs_fold (args : List ArgInfo) (pr : Str × TypeInfo) :
    ∀ acc : List (Str × TypeInfo),
    (pr ∈ args.foldl (fun acc arg =>
      acc ++ (if arg.type.isEmpty then []
              else arg.type_as_repr_list.zip arg.type)) acc ↔
      pr ∈ acc ∨ ∃ arg ∈ args,
        pr ∈ (if arg.type.isEmpty then []
              else arg.type_as_repr_list.zip arg.type)) := by
  induction args with
  | nil => intro acc; simp
  | cons a as ih =>
    intro acc
    simp only [List.foldl_cons]
    rw [ih]
    simp only [List.mem_append, List.mem_cons]
    constructor
    · rintro ((h | h) | ⟨arg, harg, hmem⟩)
      · exact Or.inl h
      · exact Or.inr ⟨a, Or.inl rfl, h⟩
      · exact Or.inr ⟨arg, Or.inr harg, hmem⟩
    · rintro (h | ⟨arg, harg | harg, hmem⟩)
      · exact Or.inl (Or.inl h)
      · subst harg; exact Or.inl (Or.inr hmem)
      · exact Or.inr ⟨arg, harg, hmem⟩

/-- If no scanned pair of the keyword is a class with a custom metaclass,
`atkPure` leaves the mapping unchanged. -/
theorem atkPure_id (kw : KeywordDoc)
    (h : ∀ pr ∈ kwPairs kw,
      ¬(isinstance_type pr.2 = true ∧ metaclass_is_type pr.2 = false)) :
    ∀ m, atkPure m kw = m := by
  have h' : ∀ arg ∈ kw.args, ∀ pr ∈ (if arg.type.isEmpty then ([] : List (Str × TypeInfo))
      else arg.type_as_repr_list.zip arg.type),
      ¬(isinstance_type pr.2 = true ∧ metaclass_is_type pr.2 = false) := by
    intro arg harg pr hpr
    exact h pr ((mem_kwPairs_fold kw.args pr []).mpr (Or.inr ⟨arg, harg, hpr⟩))
  unfold atkPure
  revert h'
  generalize kw.args = args
  intro h'
  induction args with
  | nil => intro m; rfl
  | cons a as ih =>
    intro m
    simp only [List.foldl_cons]
    have step : (if a.type.isEmpty then m
        else (a.type_as_repr_list.zip a.type).foldl (fun m pr =>
          if !dtMem m pr.1 && isinstance_type pr.2 && !metaclass_is_type pr.2 then
            mapSet m pr.1 (class_type_doc pr.2)
          else m) m) = m := by
      by_cases ha : a.type.isEmpty
      · rw [if_pos ha]
      · rw [if_neg ha]
        refine pairsFold_id _ ?_ m
        intro pr hpr
        refine h' a (List.mem_cons_self a as) pr ?_
        rw [if_neg ha]
        exact hpr
    rw [step]
    exact ih (fun arg harg => h' arg (List.mem_cons_of_mem a harg)) m

/-- The normalization pass of the `data_types` setter: when the
comprehension succeeds, the `None` produced for an unrecognized element is
in its result. -/
theorem getTypeDoc_mapM_none (dts : List TypeInfo) (t : TypeInfo)
    (ht : t ∈ dts) (hget : get_type_doc t = Except.ok Option.none) :
    ∀ tds : List (Option TypeDoc),
    exceptMapList get_type_doc dts = Except.ok tds → Option.none ∈ tds := by
  induction dts with
  | nil => cases ht
  | cons d ds ih =>
    intro tds hmap
    simp only [exceptMapList, bind, Except.bind] at hmap
    cases hd : get_type_doc d with
    | error e => rw [hd] at hmap; simp at hmap
    | ok v =>
      rw [hd] at hmap
      cases hds : exceptMapList get_type_doc ds with
      | error e => rw [hds] at hmap; simp at hmap
      | ok vs =>
        rw [hds] at hmap
        simp only [pure, Except.pure, Except.ok.injEq] at hmap
        rcases List.mem_cons.mp ht with rfl | ht2
        · rw [hget] at hd
          cases hd
          rw [← hmap]
          exact List.mem_cons_self _ _
        · rw [← hmap]
          exact List.mem_cons_of_mem _ (ih ht2 vs hds)

/-- The keying pass of the `data_types` setter raises `AttributeError`
whenever the normalized list contains a `None`. -/
theorem nameMapM_fails (tds : List (Option TypeDoc))
    (h : Option.none ∈ tds) :
    (exceptMapList typeDocPair tds).isOk = false := by
  induction tds with
  | nil => cases h
  | cons t ts ih =>
    cases t with
    | none => rfl
    | some td =>
      rcases List.mem_cons.mp h with h0 | h1
      · cases h0
      · simp only [exceptMapList, typeDocPair, bind, Except.bind]
        cases hts : exceptMapList typeDocPair ts with
        | error e => simp [Except.isOk, Except.toBool]
        | ok vs =>
          rw [hts] at ih
          simp only [Except.isOk, Except.toBool] at ih
          exact absurd h1 (by simpa using ih)

/-- Claim C7 (amended): on the keyword-scan path a reference that is not a
class with a custom metaclass is silently skipped — nothing is stored and
no error is raised; a class with a custom metaclass that matches neither
recognized shape is normalized to `None` and a `None` entry is stored
under its display name, still without error; but on the `data_types`
assignment path an unrecognized reference raises an `AttributeError` that
propagates. -/
theorem c7_unrecognized_types_amended :
    (∀ (m : List (Str × Option TypeDoc)) (kw : KeywordDoc),
      (∀ pr ∈ kwPairs kw,
        ¬(isinstance_type pr.2 = true ∧ metaclass_is_type pr.2 = false)) →
      add_types_from_keyword m kw = Except.ok m) ∧
    (∀ n, get_type_doc (TypeInfo.customMetaClass n) = Except.ok Option.none) ∧
    (∀ (m : List (Str × Option TypeDoc)) (r n : Str), dtMem m r = false →
      add_types_from_keyword m
          { args := [{ type := [TypeInfo.customMetaClass n],
                       type_as_repr_list := [r] }] }
        = Except.ok (mapSet m r Option.none)) ∧
    (∀ (lib : LibraryDoc) (dts : List TypeInfo) (t : TypeInfo), t ∈ dts →
      get_type_doc t = Except.ok Option.none →
      (LibraryDoc.set_data_types lib dts).isOk = false) := by
  refine ⟨?_, fun n => rfl, ?_, ?_⟩
  · intro m kw h
    rw [add_types_from_keyword_eq, atkPure_id kw h m]
  · intro m r n h
    rw [add_types_from_keyword_eq]
    simp [atkPure, isinstance_type, metaclass_is_type, h, class_type_doc]
  · intro lib dts t ht hget
    unfold LibraryDoc.set_data_types
    cases hm : exceptMapList get_type_doc dts with
    | error e => simp [bind, Except.bind, Except.isOk, Except.toBool]
    | ok tds =>
      have hmem := getTypeDoc_mapM_none dts t ht hget tds hm
      have hfail := nameMapM_fails tds hmem
      simp only [bind, Except.bind]
      cases hp : exceptMapList typeDocPair tds with
      | error e => simp [Except.isOk, Except.toBool]
      | ok ps => rw [hp] at hfail; simp [Except.isOk, Except.toBool] at hfail

/-- Witness for `c7_unrecognized_types_amended` at concrete inputs. -/
theorem c7_unrecognized_types_amended_witness :
    add_types_from_keyword []
        { args := [{ type := [TypeInfo.pyStr "s".toList],
                     type_as_repr_list := ["s".toList] }] }
      = Except.ok [] ∧
    add_types_from_keyword []
        { args := [{ type := [TypeInfo.customMetaClass "X".toList],
                     type_as_repr_list := ["X".toList] }] }
      = Except.ok (mapSet [] "X".toList Option.none) ∧
    (LibraryDoc.set_data_types {} [TypeInfo.pyStr "x".toList]).isOk = false := by
  refine ⟨?_, ?_, ?_⟩
  · exact (c7_unrecognized_types_amended).1 [] _ (by decide)
  · exact (c7_unrecognized_types_amended).2.2.1 [] "X".toList "X".toList (by decide)
  · exact (c7_unrecognized_types_amended).2.2.2 {} [TypeInfo.pyStr "x".toList]
      (TypeInfo.pyStr "x".toList) (List.mem_singleton.mpr rfl) rfl

/-! ## Helper lemmas for the heading scan (claim C3) -/

theorem countWs_le_length (s : Str) : countWs s ≤ s.length := by
  induction s with
  | nil => simp [countWs]
  | cons c cs ih =>
    by_cases h : isSpace c <;> simp [countWs, h]
    omega

theorem countWs_append_allWs (m : Str) (hm : allWs m) (t : Str) :
    countWs (m ++ t) = m.length + countWs t := by
  induction m with
  | nil => simp
  | cons c cs ih =>
    have hc : isSpace c = true := hm c (List.mem_cons_self _ _)
    have ih' := ih (fun d hd => hm d (List.mem_cons_of_mem _ hd))
    simp [countWs, hc, ih']
    omega

theorem countWs_append_of_lt (s : Str) (hs : countWs s < s.length) (t : Str) :
    countWs (s ++ t) = countWs s := by
  induction s with
  | nil => simp [countWs] at hs
  | cons c cs ih =>
    by_cases h : isSpace c
    · simp only [countWs, h, if_true, List.length_cons, List.cons_append,
        List.append_eq] at hs ⊢
      rw [ih (by omega)]
    · simp [countWs, h]

theorem allWs_take (s : Str) (j : Nat) (hj : j ≤ countWs s) :
    allWs (s.take j) := by
  induction s generalizing j with
  | nil => intro c hc; simp at hc
  | cons c cs ih =>
    intro d hd
    cases j with
    | zero => simp at hd
    | succ j' =>
      by_cases h : isSpace c
      · simp only [countWs, h, if_true] at hj
        simp only [List.take_succ_cons, List.mem_cons] at hd
        rcases hd with rfl | hd
        · exact h
        · exact ih j' (by omega) d hd
      · simp [countWs, h] at hj

theorem drop_countWs_shape (s : Str) :
    s.drop (countWs s) = [] ∨
      ∃ c t, s.drop (countWs s) = c :: t ∧ isSpace c = false := by
  induction s with
  | nil => left; rfl
  | cons c cs ih =>
    by_cases h : isSpace c
    · simpa [countWs, h] using ih
    · right; exact ⟨c, cs, by simp [countWs, h], by simp [h]⟩

theorem drop_lt_countWs (s : Str) (j : Nat) (hj : j < countWs s) :
    ∃ c t, s.drop j = c :: t ∧ isSpace c = true := by
  induction s generalizing j with
  | nil => simp [countWs] at hj
  | cons c cs ih =>
    by_cases h : isSpace c
    · cases j with
      | zero => exact ⟨c, cs, rfl, h⟩
      | succ j' =>
        simp only [countWs, h, if_true] at hj
        simpa using ih j' (by omega)
    · simp [countWs, h] at hj

theorem countNonNL_eq_length (s : Str) (h : '\n' ∉ s) :
    countNonNL s = s.length := by
  induction s with
  | nil => rfl
  | cons c cs ih =>
    have hc : ¬ c = '\n' := fun e => h (e ▸ List.mem_cons_self _ _)
    simp [countNonNL, hc, ih (fun m => h (List.mem_cons_of_mem _ m))]

theorem countNonNL_append_nl (s t : Str) (h : '\n' ∉ s) :
    countNonNL (s ++ '\n' :: t) = s.length := by
  induction s with
  | nil => simp [countNonNL]
  | cons c cs ih =>
    have hc : ¬ c = '\n' := fun e => h (e ▸ List.mem_cons_self _ _)
    simp [countNonNL, hc, ih (fun m => h (List.mem_cons_of_mem _ m))]

theorem firstSome_append (xs ys : List α) (f : α → Option β) :
    firstSome (xs ++ ys) f =
      match firstSome xs f with
      | some b => some b
      | Option.none => firstSome ys f := by
  induction xs with
  | nil => simp [firstSome]
  | cons x xs ih =>
    simp only [List.cons_append, firstSome]
    cases f x <;> simp [ih]

theorem firstSome_map_list (xs : List α) (g : α → γ) (f : γ → Option β) :
    firstSome (xs.map g) f = firstSome xs (fun x => f (g x)) := by
  induction xs with
  | nil => rfl
  | cons x xs ih =>
    simp only [List.map_cons, firstSome]
    cases f (g x) <;> simp [ih]

theorem firstSome_congr (xs : List α) (f g : α → Option β)
    (h : ∀ x ∈ xs, f x = g x) : firstSome xs f = firstSome xs g := by
  induction xs with
  | nil => rfl
  | cons x xs ih =>
    simp only [firstSome, h x (List.mem_cons_self _ _)]
    cases g x with
    | some b => rfl
    | none => exact ih (fun y hy => h y (List.mem_cons_of_mem _ hy))

theorem firstSome_option_map (xs : List α) (f : α → Option β) (h : β → γ)
    (g : α → Option γ) (hg : ∀ x ∈ xs, g x = (f x).map h) :
    firstSome xs g = (firstSome xs f).map h := by
  induction xs with
  | nil => rfl
  | cons x xs ih =>
    simp only [firstSome, hg x (List.mem_cons_self _ _)]
    cases f x with
    | some b => rfl
    | none => exact ih (fun y hy => hg y (List.mem_cons_of_mem _ hy))

theorem firstSome_eq_some (xs : List α) (f : α → Option β) (b : β)
    (h : firstSome xs f = some b) : ∃ x ∈ xs, f x = some b := by
  induction xs with
  | nil => simp [firstSome] at h
  | cons x xs ih =>
    simp only [firstSome] at h
    cases hx : f x with
    | some b0 =>
      rw [hx] at h
      exact ⟨x, List.mem_cons_self _ _, hx.trans h⟩
    | none =>
      rw [hx] at h
      obtain ⟨y, hy, hfy⟩ := ih h
      exact ⟨y, List.mem_cons_of_mem _ hy, hfy⟩

theorem firstSome_none (xs : List α) (f : α → Option β)
    (h : ∀ x ∈ xs, f x = Option.none) : firstSome xs f = Option.none := by
  induction xs with
  | nil => rfl
  | cons x xs ih =>
    simp only [firstSome, h x (List.mem_cons_self _ _)]
    exact ih (fun y hy => h y (List.mem_cons_of_mem _ hy))

theorem countdown_succ_cons (n : Nat) :
    countdown (n + 1) = (n + 1) :: countdown n := rfl

theorem countdownPos_succ (n : Nat) :
    countdownPos (n + 1) = (countdown n).map (· + 1) := by
  induction n with
  | zero => rfl
  | succ n ih =>
    show (n + 2) :: countdownPos (n + 1) = _
    rw [ih]
    show _ = ((n + 1) :: countdown n).map (· + 1)
    simp

theorem countdown_succ (n : Nat) :
    countdown (n + 1) = (countdown n).map (· + 1) ++ [0] := by
  show countdownPos (n + 1) ++ [0] = _
  rw [countdownPos_succ]

theorem countdown_cons_zero (b : Nat) :
    countdown b = b :: (countdownPos b).map (fun x => x - 1) := by
  induction b with
  | zero => rfl
  | succ b ih =>
    show (b + 1) :: countdownPos b ++ [0] = _
    have : countdownPos b ++ [0] = countdown b := rfl
    rw [List.cons_append, this, ih]
    show _ = (b + 1) :: ((b + 1) :: countdownPos b).map (fun x => x - 1)
    simp

theorem countdown_add (a b : Nat) :
    countdown (b + a)
      = (countdown a).map (· + b) ++ (countdownPos b).map (fun x => x - 1) := by
  induction a with
  | zero =>
    have h0 : (countdown 0).map (· + b) = [b] := by
      show ([0] : List Nat).map (· + b) = [b]
      simp
    show countdown b = (countdown 0).map (· + b) ++ _
    rw [h0, countdown_cons_zero b]
    rfl
  | succ a ih =>
    have h1 : b + (a + 1) = (b + a) + 1 := by omega
    rw [h1, countdown_succ_cons, ih]
    show _ = ((a + 1) :: countdown a).map (· + b) ++ _
    simp only [List.map_cons, List.cons_append]
    congr 1
    omega

theorem mem_countdown (n x : Nat) : x ∈ countdown n ↔ x ≤ n := by
  induction n with
  | zero => simp [countdown, countdownPos]
  | succ n ih =>
    rw [countdown_succ_cons]
    simp [ih]
    omega

theorem mem_countdownPos (n x : Nat) :
    x ∈ countdownPos n ↔ 1 ≤ x ∧ x ≤ n := by
  induction n with
  | zero => simp [countdownPos]; omega
  | succ n ih =>
    simp only [countdownPos, List.mem_cons, ih]
    omega

theorem countNonNL_le_length (s : Str) : countNonNL s ≤ s.length := by
  induction s with
  | nil => simp [countNonNL]
  | cons c cs ih =>
    by_cases h : c = '\n' <;> simp [countNonNL, h]
    omega

theorem mem_upFrom1 (n x : Nat) : x ∈ upFrom1 n ↔ 1 ≤ x ∧ x ≤ n := by
  unfold upFrom1
  constructor
  · intro hx
    obtain ⟨i, hi, rfl⟩ := List.mem_map.mp hx
    simp only [List.mem_range] at hi
    omega
  · intro hx
    refine List.mem_map.mpr ⟨x - 1, ?_, by omega⟩
    simp only [List.mem_range]
    omega

theorem tailSearch_some (s6 : Str) (w4 : Nat) (h : tailSearch s6 = some w4) :
    w4 ≤ countWs s6 ∧ dollarAt (s6.drop w4) = true := by
  obtain ⟨x, hx, hfx⟩ := firstSome_eq_some _ _ _ h
  by_cases hd : dollarAt (s6.drop x) = true
  · rw [if_pos hd] at hfx
    cases hfx
    exact ⟨(mem_countdown _ _).mp hx, hd⟩
  · rw [if_neg hd] at hfx
    cases hfx

theorem closeSearch_some (s4 : Str) (r : Nat) (h : closeSearch s4 = some r) :
    2 ≤ r ∧ r ≤ s4.length := by
  obtain ⟨w3, hw3, hfw3⟩ := firstSome_eq_some _ _ _ h
  obtain ⟨h1, h2⟩ := (mem_countdownPos _ _).mp hw3
  have hwlen : w3 ≤ s4.length := le_trans h2 (countWs_le_length s4)
  cases hdrop : s4.drop w3 with
  | nil => rw [hdrop] at hfw3; cases hfw3
  | cons c s6 =>
    rw [hdrop] at hfw3
    dsimp only at hfw3
    by_cases hc : c = '='
    · rw [if_pos hc] at hfw3
      cases htail : tailSearch s6 with
      | none => rw [htail] at hfw3; cases hfw3
      | some w4 =>
        rw [htail] at hfw3
        simp only [Option.map_some'] at hfw3
        cases hfw3
        obtain ⟨hb, _⟩ := tailSearch_some s6 w4 htail
        have hlen : s6.length + 1 = s4.length - w3 := by
          have hd2 := congrArg List.length hdrop
          simp [List.length_drop] at hd2
          omega
        have hcw := countWs_le_length s6
        omega
    · rw [if_neg hc] at hfw3; cases hfw3

theorem capSearch_some (s3 : Str) (cap : Str) (n : Nat)
    (h : capSearch s3 = some (cap, n)) : 1 ≤ n ∧ n ≤ s3.length := by
  obtain ⟨clen, hclen, hf⟩ := firstSome_eq_some _ _ _ h
  obtain ⟨h1, h2⟩ := (mem_upFrom1 _ _).mp hclen
  have hle : clen ≤ s3.length := le_trans h2 (countNonNL_le_length s3)
  cases hcl : closeSearch (s3.drop clen) with
  | none => rw [hcl] at hf; cases hf
  | some r =>
    rw [hcl] at hf
    simp only [Option.map_some'] at hf
    cases hf
    obtain ⟨hr1, hr2⟩ := closeSearch_some _ _ hcl
    simp [List.length_drop] at hr2
    omega

theorem afterEq_some (s2 : Str) (cap : Str) (n : Nat)
    (h : afterEq s2 = some (cap, n)) : 1 ≤ n ∧ n ≤ s2.length := by
  obtain ⟨w2, hw2, hf⟩ := firstSome_eq_some _ _ _ h
  obtain ⟨h1, h2⟩ := (mem_countdownPos _ _).mp hw2
  have hle : w2 ≤ s2.length := le_trans h2 (countWs_le_length s2)
  cases hcs : capSearch (s2.drop w2) with
  | none => rw [hcs] at hf; cases hf
  | some p =>
    rw [hcs] at hf
    simp only [Option.map_some'] at hf
    cases hf
    obtain ⟨hp1, hp2⟩ := capSearch_some _ _ _ hcs
    simp [List.length_drop] at hp2
    omega

theorem tryMatch_bound (s : Str) (cap : Str) (len : Nat)
    (h : tryMatch s = some (cap, len)) : 1 ≤ len ∧ len ≤ s.length := by
  obtain ⟨w1, hw1, hf⟩ := firstSome_eq_some _ _ _ h
  have h1 : w1 ≤ countWs s := (mem_countdown _ _).mp hw1
  have hle : w1 ≤ s.length := le_trans h1 (countWs_le_length s)
  cases hdrop : s.drop w1 with
  | nil => rw [hdrop] at hf; cases hf
  | cons c s2 =>
    rw [hdrop] at hf
    dsimp only at hf
    by_cases hc : c = '='
    · rw [if_pos hc] at hf
      cases hae : afterEq s2 with
      | none => rw [hae] at hf; cases hf
      | some p =>
        rw [hae] at hf
        simp only [Option.map_some'] at hf
        cases hf
        obtain ⟨hp1, hp2⟩ := afterEq_some _ _ _ hae
        have hlen : s2.length + 1 = s.length - w1 := by
          have hd2 := congrArg List.length hdrop
          simp [List.length_drop] at hd2
          omega
        omega
    · rw [if_neg hc] at hf; cases hf

theorem tryMatch_nil : tryMatch [] = Option.none := rfl

theorem tryMatch_cons_ws (c : Char) (hc : isSpace c = true) (s : Str) :
    tryMatch (c :: s) = (tryMatch s).map (fun p => (p.1, p.2 + 1)) := by
  have hne : ¬ c = '=' := by
    intro e
    rw [e] at hc
    exact absurd hc (by decide)
  unfold tryMatch
  have hcw : countWs (c :: s) = countWs s + 1 := by simp [countWs, hc]
  rw [hcw, countdown_succ, firstSome_append, firstSome_map_list]
  have hzero : firstSome [0] (fun w1 =>
      match (c :: s).drop w1 with
      | d :: s2 =>
        if d = '=' then (afterEq s2).map (fun p => (p.1, w1 + 1 + p.2))
        else Option.none
      | [] => Option.none) = Option.none := by
    simp [firstSome, hne]
  have hmain : firstSome (countdown (countWs s)) (fun x =>
      match (c :: s).drop (x + 1) with
      | d :: s2 =>
        if d = '=' then (afterEq s2).map (fun p => (p.1, x + 1 + 1 + p.2))
        else Option.none
      | [] => Option.none)
      = (firstSome (countdown (countWs s)) (fun w1 =>
          match s.drop w1 with
          | d :: s2 =>
            if d = '=' then (afterEq s2).map (fun p => (p.1, w1 + 1 + p.2))
            else Option.none
          | [] => Option.none)).map (fun p => (p.1, p.2 + 1)) := by
    refine firstSome_option_map _ _ _ _ ?_
    intro x _
    simp only [List.drop_succ_cons]
    cases hdx : s.drop x with
    | nil => rfl
    | cons d s2 =>
      dsimp only
      by_cases hd : d = '='
      · simp only [if_pos hd]
        cases hae : afterEq s2 with
        | none => rfl
        | some p =>
          simp only [Option.map_some']
          have h3 : x + 1 + 1 + p.2 = x + 1 + p.2 + 1 := by omega
          rw [h3]
      · simp only [if_neg hd]
        rfl
  rw [hzero, hmain]
  cases firstSome (countdown (countWs s)) (fun w1 =>
      match s.drop w1 with
      | d :: s2 =>
        if d = '=' then (afterEq s2).map (fun p => (p.1, w1 + 1 + p.2))
        else Option.none
      | [] => Option.none) <;> rfl

theorem tryMatch_ws_append (m : Str) (hm : allWs m) (t : Str) :
    tryMatch (m ++ t) = (tryMatch t).map (fun p => (p.1, p.2 + m.length)) := by
  induction m with
  | nil =>
    cases h : tryMatch t <;> simp [h]
  | cons c m' ih =>
    have hc : isSpace c = true := hm c (List.mem_cons_self _ _)
    have ih' := ih (fun d hd => hm d (List.mem_cons_of_mem _ hd))
    rw [List.cons_append, tryMatch_cons_ws c hc, ih', Option.map_map]
    cases tryMatch t with
    | none => rfl
    | some p =>
      simp only [Option.map_some', Function.comp]
      have : p.2 + m'.length + 1 = p.2 + (m'.length + 1) := by omega
      rw [this]
      rfl

theorem ws_ne_eq (c : Char) (hc : isSpace c = true) : ¬ c = '=' := by
  intro e
  rw [e] at hc
  exact absurd hc (by decide)

theorem allWs_of_countWs_eq (x : Str) (h : countWs x = x.length) :
    allWs x := by
  have := allWs_take x (countWs x) (le_refl _)
  rw [h, List.take_length] at this
  exact this

theorem countWs_eq_length_of_allWs (x : Str) (h : allWs x) :
    countWs x = x.length := by
  induction x with
  | nil => rfl
  | cons c cs ih =>
    have hc : isSpace c = true := h c (List.mem_cons_self _ _)
    simp [countWs, hc, ih (fun d hd => h d (List.mem_cons_of_mem _ hd))]

theorem countWs_lt_of_not_allWs (x : Str) (h : ¬ allWs x) :
    countWs x < x.length := by
  rcases Nat.lt_or_ge (countWs x) x.length with hlt | hge
  · exact hlt
  · exact absurd (allWs_of_countWs_eq x (le_antisymm (countWs_le_length x) hge)) h

theorem drop_countWs_head (x : Str) (h : ¬ allWs x) :
    ∃ c r, x.drop (countWs x) = c :: r ∧ isSpace c = false := by
  rcases drop_countWs_shape x with hnil | hcons
  · exfalso
    have hlen := congrArg List.length hnil
    simp [List.length_drop] at hlen
    have hle : x.length ≤ countWs x := by omega
    exact h (allWs_of_countWs_eq x (le_antisymm (countWs_le_length x) hle))
  · exact hcons

theorem drop_len_add (x y : List Char) (k : Nat) :
    (x ++ y).drop (x.length + k) = y.drop k := by
  induction x with
  | nil => simp
  | cons c x ih =>
    have h1 : (c :: x).length + k = (x.length + k) + 1 := by
      rw [List.length_cons]
      omega
    rw [List.cons_append, h1, List.drop_succ_cons, ih]

theorem drop_append_le (x y : List Char) (k : Nat) (hk : k ≤ x.length) :
    (x ++ y).drop k = x.drop k ++ y := by
  induction x generalizing k with
  | nil =>
    have : k = 0 := by simpa using hk
    simp [this]
  | cons c x ih =>
    cases k with
    | zero => simp
    | succ k' =>
      simp only [List.cons_append, List.drop_succ_cons]
      exact ih k' (by simpa using hk)

theorem take_append_le (x y : List Char) (k : Nat) (hk : k ≤ x.length) :
    (x ++ y).take k = x.take k := by
  induction x generalizing k with
  | nil =>
    have : k = 0 := by simpa using hk
    simp [this]
  | cons c x ih =>
    cases k with
    | zero => simp
    | succ k' =>
      simp only [List.cons_append, List.take_succ_cons]
      rw [ih k' (by simpa using hk)]

theorem drop_of_drop_cons (x : Str) (k : Nat) (c : Char) (r : Str)
    (h : x.drop k = c :: r) : x.drop (k + 1) = r := by
  have h1 : x.drop (k + 1) = (x.drop k).drop 1 := by
    rw [List.drop_drop]
  rw [h1, h, List.drop_succ_cons, List.drop_zero]

theorem mem_of_drop_eq (x : Str) (k : Nat) (c : Char) (r : Str)
    (h : x.drop k = c :: r) : ∀ d ∈ c :: r, d ∈ x := by
  intro d hd
  rw [← h] at hd
  exact List.drop_subset _ _ hd

theorem closeSearch_dollar (s4 : Str) (r : Nat) (h : closeSearch s4 = some r) :
    dollarAt (s4.drop r) = true := by
  obtain ⟨w3, hw3, hfw3⟩ := firstSome_eq_some _ _ _ h
  cases hdrop : s4.drop w3 with
  | nil => rw [hdrop] at hfw3; cases hfw3
  | cons c s6 =>
    rw [hdrop] at hfw3
    dsimp only at hfw3
    by_cases hc : c = '='
    · rw [if_pos hc] at hfw3
      cases htail : tailSearch s6 with
      | none => rw [htail] at hfw3; cases hfw3
      | some w4 =>
        rw [htail] at hfw3
        simp only [Option.map_some'] at hfw3
        cases hfw3
        obtain ⟨_, hdol⟩ := tailSearch_some s6 w4 htail
        have h6 : s4.drop (w3 + 1) = s6 := drop_of_drop_cons s4 w3 c s6 hdrop
        have h7 : s4.drop (w3 + 1 + w4) = s6.drop w4 := by
          rw [← h6, List.drop_drop]
        rw [h7]
        exact hdol
    · rw [if_neg hc] at hfw3; cases hfw3

theorem capSearch_dollar (s3 : Str) (cap : Str) (n : Nat)
    (h : capSearch s3 = some (cap, n)) : dollarAt (s3.drop n) = true := by
  obtain ⟨clen, hclen, hf⟩ := firstSome_eq_some _ _ _ h
  cases hcl : closeSearch (s3.drop clen) with
  | none => rw [hcl] at hf; cases hf
  | some r =>
    rw [hcl] at hf
    simp only [Option.map_some'] at hf
    cases hf
    have hdol := closeSearch_dollar _ _ hcl
    rw [List.drop_drop] at hdol
    exact hdol

theorem afterEq_dollar (s2 : Str) (cap : Str) (n : Nat)
    (h : afterEq s2 = some (cap, n)) : dollarAt (s2.drop n) = true := by
  obtain ⟨w2, hw2, hf⟩ := firstSome_eq_some _ _ _ h
  cases hcs : capSearch (s2.drop w2) with
  | none => rw [hcs] at hf; cases hf
  | some p =>
    rw [hcs] at hf
    simp only [Option.map_some'] at hf
    cases hf
    have hdol := capSearch_dollar _ _ _ hcs
    rw [List.drop_drop] at hdol
    exact hdol

theorem tryMatch_dollar (s : Str) (cap : Str) (len : Nat)
    (h : tryMatch s = some (cap, len)) : dollarAt (s.drop len) = true := by
  obtain ⟨w1, hw1, hf⟩ := firstSome_eq_some _ _ _ h
  cases hdrop : s.drop w1 with
  | nil => rw [hdrop] at hf; cases hf
  | cons c s2 =>
    rw [hdrop] at hf
    dsimp only at hf
    by_cases hc : c = '='
    · rw [if_pos hc] at hf
      cases hae : afterEq s2 with
      | none => rw [hae] at hf; cases hf
      | some p =>
        rw [hae] at hf
        simp only [Option.map_some'] at hf
        cases hf
        have hdol := afterEq_dollar _ _ _ hae
        have h6 : s.drop (w1 + 1) = s2 := drop_of_drop_cons s w1 c s2 hdrop
        have h7 : s.drop (w1 + 1 + p.2) = s2.drop p.2 := by
          rw [← h6, List.drop_drop]
        rw [h7]
        exact hdol
    · rw [if_neg hc] at hf; cases hf

theorem tryMatch_isolated_full (l : Str) (hl : '\n' ∉ l) (cap : Str)
    (len : Nat) (h : tryMatch l = some (cap, len)) : len = l.length := by
  have hb := tryMatch_bound l cap len h
  have hdol := tryMatch_dollar l cap len h
  cases hdrop : l.drop len with
  | nil =>
    have hlen := congrArg List.length hdrop
    simp only [List.length_drop, List.length_nil] at hlen
    omega
  | cons c r =>
    rw [hdrop] at hdol
    have hcnl : c = '\n' := by simpa [dollarAt] using hdol
    exact absurd (mem_of_drop_eq l len c r hdrop c (List.mem_cons_self _ _))
      (hcnl ▸ hl)

theorem closeSearch_zero_ws (s4 : Str) (h : countWs s4 = 0) :
    closeSearch s4 = Option.none := by
  unfold closeSearch
  rw [h]
  rfl

theorem closeSearch_shape_nil (s4 : Str) (h : s4.drop (countWs s4) = []) :
    closeSearch s4 = Option.none := by
  unfold closeSearch
  refine firstSome_none _ _ ?_
  intro w3 hw3
  obtain ⟨h1, h2⟩ := (mem_countdownPos _ _).mp hw3
  rcases Nat.lt_or_ge w3 (countWs s4) with hlt | hge
  · obtain ⟨d, t, hdd, hws⟩ := drop_lt_countWs s4 w3 hlt
    rw [hdd]
    dsimp only
    rw [if_neg (ws_ne_eq d hws)]
  · have he : w3 = countWs s4 := le_antisymm h2 hge
    rw [he, h]

theorem closeSearch_shape_cons (s4 : Str) (c : Char) (s6 : Str)
    (hd : s4.drop (countWs s4) = c :: s6) (hpos : 1 ≤ countWs s4) :
    closeSearch s4 =
      (if c = '=' then (tailSearch s6).map (fun w4 => countWs s4 + 1 + w4)
       else Option.none) := by
  unfold closeSearch
  obtain ⟨n, hn⟩ : ∃ n, countWs s4 = n + 1 := ⟨countWs s4 - 1, by omega⟩
  rw [hn] at hd ⊢
  show firstSome ((n + 1) :: countdownPos n) _ = _
  simp only [firstSome]
  rw [hd]
  dsimp only
  by_cases hc : c = '='
  · rw [if_pos hc]
    cases ht : tailSearch s6 with
    | none =>
      simp only [Option.map_none']
      refine firstSome_none _ _ ?_
      intro w3 hw3
      obtain ⟨hg1, hg2⟩ := (mem_countdownPos _ _).mp hw3
      obtain ⟨d, t, hdd, hws⟩ := drop_lt_countWs s4 w3 (by omega)
      rw [hdd]
      dsimp only
      rw [if_neg (ws_ne_eq d hws)]
    | some w4 => simp only [Option.map_some']
  · rw [if_neg hc]
    refine firstSome_none _ _ ?_
    intro w3 hw3
    obtain ⟨hg1, hg2⟩ := (mem_countdownPos _ _).mp hw3
    obtain ⟨d, t, hdd, hws⟩ := drop_lt_countWs s4 w3 (by omega)
    rw [hdd]
    dsimp only
    rw [if_neg (ws_ne_eq d hws)]

theorem tryMatch_shape_nil (s : Str) (h : s.drop (countWs s) = []) :
    tryMatch s = Option.none := by
  unfold tryMatch
  refine firstSome_none _ _ ?_
  intro w1 hw1
  have hle := (mem_countdown _ _).mp hw1
  rcases Nat.lt_or_ge w1 (countWs s) with hlt | hge
  · obtain ⟨d, t, hdd, hws⟩ := drop_lt_countWs s w1 hlt
    rw [hdd]
    dsimp only
    rw [if_neg (ws_ne_eq d hws)]
  · have he : w1 = countWs s := le_antisymm hle hge
    rw [he, h]

theorem tryMatch_shape_cons (s : Str) (c : Char) (s2 : Str)
    (hd : s.drop (countWs s) = c :: s2) :
    tryMatch s =
      (if c = '=' then
        (afterEq s2).map (fun p => (p.1, countWs s + 1 + p.2))
       else Option.none) := by
  unfold tryMatch
  rw [countdown_cons_zero]
  simp only [firstSome]
  rw [hd]
  dsimp only
  by_cases hc : c = '='
  · rw [if_pos hc]
    cases ha : afterEq s2 with
    | none =>
      simp only [Option.map_none']
      refine firstSome_none _ _ ?_
      intro x hx
      obtain ⟨w, hw, rfl⟩ := List.mem_map.mp hx
      obtain ⟨hw1, hw2⟩ := (mem_countdownPos _ _).mp hw
      obtain ⟨d, t, hdd, hws⟩ := drop_lt_countWs s (w - 1) (by omega)
      rw [hdd]
      dsimp only
      rw [if_neg (ws_ne_eq d hws)]
    | some p => simp only [Option.map_some']
  · rw [if_neg hc]
    refine firstSome_none _ _ ?_
    intro x hx
    obtain ⟨w, hw, rfl⟩ := List.mem_map.mp hx
    obtain ⟨hw1, hw2⟩ := (mem_countdownPos _ _).mp hw
    obtain ⟨d, t, hdd, hws⟩ := drop_lt_countWs s (w - 1) (by omega)
    rw [hdd]
    dsimp only
    rw [if_neg (ws_ne_eq d hws)]

theorem tryMatch_allWs (s : Str) (h : allWs s) : tryMatch s = Option.none := by
  apply tryMatch_shape_nil
  rw [countWs_eq_length_of_allWs s h, List.drop_length]

theorem tailSearch_allWs (v : Str) (h : allWs v) :
    tailSearch v = some v.length := by
  unfold tailSearch
  rw [countWs_eq_length_of_allWs v h, countdown_cons_zero]
  simp only [firstSome]
  rw [List.drop_length]
  rfl

theorem tailSearch_nonws (v t : Str) (hnl : '\n' ∉ v) (hnw : ¬ allWs v) :
    tailSearch (v ++ t) = Option.none := by
  unfold tailSearch
  have hlt0 := countWs_lt_of_not_allWs v hnw
  rw [countWs_append_of_lt v hlt0 t]
  refine firstSome_none _ _ ?_
  intro w4 hw4
  have hle := (mem_countdown _ _).mp hw4
  have hlt : w4 < v.length := lt_of_le_of_lt hle hlt0
  cases hdd : v.drop w4 with
  | nil =>
    exfalso
    have hlen := congrArg List.length hdd
    simp only [List.length_drop, List.length_nil] at hlen
    omega
  | cons d r =>
    have hjoin : (v ++ t).drop w4 = d :: (r ++ t) := by
      rw [drop_append_le v t w4 (le_of_lt hlt), hdd]
      rfl
    rw [hjoin]
    have hdv : d ∈ v := mem_of_drop_eq v w4 d r hdd d (List.mem_cons_self _ _)
    have hne : ¬ d = '\n' := fun e => hnl (e ▸ hdv)
    simp [dollarAt, hne]

theorem tailSearch_nonws_nil (v : Str) (hnl : '\n' ∉ v) (hnw : ¬ allWs v) :
    tailSearch v = Option.none := by
  have h := tailSearch_nonws v [] hnl hnw
  rwa [List.append_nil] at h

theorem tailSearch_ws_nl (v t : Str) (hv : allWs v) :
    tailSearch (v ++ '\n' :: t) = some (v.length + nlExt t) := by
  unfold tailSearch
  have hcw : countWs (v ++ '\n' :: t) = (v.length + 1) + countWs t := by
    rw [countWs_append_allWs v hv]
    have hsp : isSpace '\n' = true := by decide
    have h1 : countWs ('\n' :: t) = countWs t + 1 := by
      simp [countWs, hsp]
    rw [h1]
    omega
  rw [hcw, countdown_add (countWs t) (v.length + 1), firstSome_append,
    firstSome_map_list]
  have hfirst : firstSome (countdown (countWs t))
      (fun w => if dollarAt ((v ++ '\n' :: t).drop (w + (v.length + 1)))
        then some (w + (v.length + 1)) else Option.none)
      = (firstSome (countdown (countWs t))
          (fun w4 => if dollarAt (t.drop w4) then some w4 else Option.none)).map
          (fun w => w + (v.length + 1)) := by
    refine firstSome_option_map _ _ _ _ ?_
    intro w _
    have hdw : (v ++ '\n' :: t).drop (w + (v.length + 1)) = t.drop w := by
      have h1 : w + (v.length + 1) = (v ++ ['\n']).length + w := by
        simp
        omega
      have h2 : v ++ '\n' :: t = (v ++ ['\n']) ++ t := by simp
      rw [h1, h2, drop_len_add]
    rw [hdw]
    by_cases hdol : dollarAt (t.drop w) = true
    · simp [hdol]
    · simp [Bool.not_eq_true] at hdol
      simp [hdol]
  rw [hfirst]
  have hts : tailSearch t = firstSome (countdown (countWs t))
      (fun w4 => if dollarAt (t.drop w4) then some w4 else Option.none) := rfl
  rw [← hts]
  cases ht : tailSearch t with
  | some e =>
    simp only [Option.map_some']
    have : e + (v.length + 1) = v.length + nlExt t := by
      simp [nlExt, ht]
      omega
    rw [this]
  | none =>
    simp only [Option.map_none']
    have hcp : countdownPos (v.length + 1) = (v.length + 1) :: countdownPos v.length := rfl
    rw [hcp]
    simp only [List.map_cons, firstSome]
    have hd0 : (v ++ '\n' :: t).drop (v.length + 1 - 1) = '\n' :: t := by
      have h2 : v ++ '\n' :: t = (v ++ []) ++ '\n' :: t := by simp
      have h3 : v.length + 1 - 1 = (v : List Char).length + 0 := by omega
      rw [h3]
      conv_lhs => rw [show v ++ '\n' :: t = v ++ ('\n' :: t) from rfl]
      rw [drop_len_add]
      rfl
    rw [hd0]
    have hdol : dollarAt ('\n' :: t) = true := by simp [dollarAt]
    rw [if_pos hdol]
    have : v.length + 1 - 1 = v.length + nlExt t := by
      simp [nlExt, ht]
    rw [this]

theorem dropWhile_allWs_append (a b : Str) (ha : allWs a) :
    (a ++ b).dropWhile isSpace = b.dropWhile isSpace := by
  induction a with
  | nil => simp
  | cons c cs ih =>
    have hc : isSpace c = true := ha c (List.mem_cons_self _ _)
    simp only [List.cons_append, List.dropWhile_cons, hc, if_true]
    exact ih (fun d hd => ha d (List.mem_cons_of_mem _ hd))

theorem strip_single (m : Str) (c : Char) (r : Str) (hm : allWs m)
    (hc : isSpace c = false) (hr : allWs r) : strip (m ++ c :: r) = [c] := by
  unfold strip
  rw [dropWhile_allWs_append m (c :: r) hm]
  have h1 : (c :: r).dropWhile isSpace = c :: r := by
    simp [List.dropWhile_cons, hc]
  rw [h1, List.reverse_cons]
  have hrev : allWs r.reverse := fun d hd => hr d (List.mem_reverse.mp hd)
  rw [dropWhile_allWs_append r.reverse [c] hrev]
  simp [List.dropWhile_cons, hc]

theorem not_allWs_tail_of_strip_ne (l : Str) (c : Char) (r : Str)
    (hd : l.drop (countWs l) = c :: r) (hcsp : isSpace c = false)
    (hst : strip l ≠ [c]) : ¬ allWs r := by
  intro hr
  apply hst
  have hm : allWs (l.take (countWs l)) := allWs_take l _ (le_refl _)
  have h2 : l.take (countWs l) ++ c :: r = l := by
    rw [← hd]
    exact List.take_append_drop _ _
  rw [← h2]
  exact strip_single _ c r hm hcsp hr

theorem allWs_glue (x l : Str) (hx : allWs x) (hl : allWs l) :
    allWs (x ++ '\n' :: l) := by
  intro d hd
  rcases List.mem_append.mp hd with ha | hb
  · exact hx d ha
  · rcases List.mem_cons.mp hb with rfl | hc2
    · decide
    · exact hl d hc2

theorem allWs_nil : allWs ([] : Str) :=
  fun d hd => absurd hd (List.not_mem_nil d)

theorem closeSearch_append_nl (z t : Str) (hz : '\n' ∉ z)
    (ht : ∀ x, allWs x → closeSearch (x ++ '\n' :: t) = Option.none) :
    closeSearch (z ++ '\n' :: t)
      = (closeSearch z).map (fun r => r + nlExt t) := by
  by_cases hw : allWs z
  · rw [ht z hw, closeSearch_shape_nil z
      (by rw [countWs_eq_length_of_allWs z hw, List.drop_length])]
    rfl
  · have hlt := countWs_lt_of_not_allWs z hw
    obtain ⟨c, s6, hd, hws⟩ := drop_countWs_head z hw
    have hcwJ : countWs (z ++ '\n' :: t) = countWs z :=
      countWs_append_of_lt z hlt _
    have hdJ : (z ++ '\n' :: t).drop (countWs (z ++ '\n' :: t))
        = c :: (s6 ++ '\n' :: t) := by
      rw [hcwJ, drop_append_le z _ (countWs z) (le_of_lt hlt), hd]
      rfl
    by_cases h0 : countWs z = 0
    · rw [closeSearch_zero_ws z h0,
        closeSearch_zero_ws _ (by rw [hcwJ]; exact h0)]
      rfl
    · have hpos : 1 ≤ countWs z := by omega
      rw [closeSearch_shape_cons z c s6 hd hpos,
        closeSearch_shape_cons _ c (s6 ++ '\n' :: t) hdJ
          (by rw [hcwJ]; exact hpos)]
      rw [hcwJ]
      by_cases hc : c = '='
      · simp only [if_pos hc]
        have hs6 : ∀ d ∈ s6, d ∈ z := fun d hd2 =>
          mem_of_drop_eq z _ c s6 hd d (List.mem_cons_of_mem _ hd2)
        have hs6nl : '\n' ∉ s6 := fun hmem => hz (hs6 _ hmem)
        by_cases hw6 : allWs s6
        · rw [tailSearch_ws_nl s6 t hw6, tailSearch_allWs s6 hw6]
          simp only [Option.map_some']
          congr 1
          omega
        · rw [tailSearch_nonws s6 ('\n' :: t) hs6nl hw6,
            tailSearch_nonws_nil s6 hs6nl hw6]
          rfl
      · simp only [if_neg hc]
        rfl

theorem closeSearch_ws_nonblank (x l T : Str) (hx : allWs x)
    (hl : '\n' ∉ l) (hnw : ¬ allWs l) (hst : strip l ≠ ['=']) :
    closeSearch (x ++ '\n' :: (l ++ T)) = Option.none := by
  obtain ⟨c, r, hd, hws⟩ := drop_countWs_head l hnw
  have hm : allWs (l.take (countWs l)) := allWs_take l _ (le_refl _)
  have hall : allWs (x ++ '\n' :: l.take (countWs l)) := allWs_glue x _ hx hm
  have h2 : l.take (countWs l) ++ c :: r = l := by
    rw [← hd]
    exact List.take_append_drop _ _
  have hsplit : x ++ '\n' :: (l ++ T)
      = (x ++ '\n' :: l.take (countWs l)) ++ (c :: (r ++ T)) := by
    conv_lhs => rw [← h2]
    simp
  rw [hsplit]
  have hcw : countWs ((x ++ '\n' :: l.take (countWs l)) ++ (c :: (r ++ T)))
      = (x ++ '\n' :: l.take (countWs l)).length := by
    rw [countWs_append_allWs _ hall]
    have hz : countWs (c :: (r ++ T)) = 0 := by simp [countWs, hws]
    rw [hz]
    omega
  have hdrop : ((x ++ '\n' :: l.take (countWs l)) ++ (c :: (r ++ T))).drop
      (countWs ((x ++ '\n' :: l.take (countWs l)) ++ (c :: (r ++ T))))
      = c :: (r ++ T) := by
    rw [hcw]
    have h3 := drop_len_add (x ++ '\n' :: l.take (countWs l)) (c :: (r ++ T)) 0
    simp only [Nat.add_zero, List.drop_zero] at h3
    exact h3
  have hpos : 1 ≤ countWs ((x ++ '\n' :: l.take (countWs l)) ++ (c :: (r ++ T))) := by
    rw [hcw]
    simp
    omega
  rw [closeSearch_shape_cons _ c (r ++ T) hdrop hpos]
  by_cases hc : c = '='
  · simp only [if_pos hc]
    have hrnl : '\n' ∉ r := by
      intro hmem
      exact hl (mem_of_drop_eq l _ c r hd '\n' (List.mem_cons_of_mem _ hmem))
    have hrnw : ¬ allWs r := by
      refine not_allWs_tail_of_strip_ne l c r hd hws ?_
      rw [hc]
      exact hst
    rw [tailSearch_nonws r T hrnl hrnw]
    rfl
  · simp only [if_neg hc]

theorem closeSearch_ws_join (ls : List Str) (h1 : ∀ l ∈ ls, '\n' ∉ l)
    (h2 : ∀ l ∈ ls, strip l ≠ ['=']) :
    ∀ x, allWs x → closeSearch (x ++ '\n' :: joinN ls) = Option.none := by
  induction ls with
  | nil =>
    intro x hx
    apply closeSearch_shape_nil
    have hall : allWs (x ++ '\n' :: joinN []) := allWs_glue x _ hx allWs_nil
    rw [countWs_eq_length_of_allWs _ hall, List.drop_length]
  | cons l ls' ih =>
    intro x hx
    have hl1 : '\n' ∉ l := h1 l (List.mem_cons_self _ _)
    have hl2 := h2 l (List.mem_cons_self _ _)
    by_cases hw : allWs l
    · cases ls' with
      | nil =>
        apply closeSearch_shape_nil
        have hall : allWs (x ++ '\n' :: joinN [l]) := allWs_glue x _ hx hw
        rw [countWs_eq_length_of_allWs _ hall, List.drop_length]
      | cons m ms =>
        rw [show joinN (l :: m :: ms) = l ++ '\n' :: joinN (m :: ms) from rfl]
        rw [show x ++ '\n' :: (l ++ '\n' :: joinN (m :: ms))
          = (x ++ '\n' :: l) ++ '\n' :: joinN (m :: ms) by simp]
        exact ih (fun a ha => h1 a (List.mem_cons_of_mem _ ha))
          (fun a ha => h2 a (List.mem_cons_of_mem _ ha))
          (x ++ '\n' :: l) (allWs_glue x l hx hw)
    · cases ls' with
      | nil =>
        rw [show joinN [l] = l from rfl]
        have hcl := closeSearch_ws_nonblank x l [] hx hl1 hw hl2
        rwa [List.append_nil] at hcl
      | cons m ms =>
        rw [show joinN (l :: m :: ms) = l ++ '\n' :: joinN (m :: ms) from rfl]
        exact closeSearch_ws_nonblank x l ('\n' :: joinN (m :: ms)) hx hl1 hw hl2

theorem capSearch_append_nl (y t : Str) (hy : '\n' ∉ y)
    (ht : ∀ x, allWs x → closeSearch (x ++ '\n' :: t) = Option.none) :
    capSearch (y ++ '\n' :: t)
      = (capSearch y).map (fun p => (p.1, p.2 + nlExt t)) := by
  unfold capSearch
  rw [countNonNL_append_nl y t hy, countNonNL_eq_length y hy]
  refine firstSome_option_map _ _ _ _ ?_
  intro clen hclen
  obtain ⟨h1, h2⟩ := (mem_upFrom1 _ _).mp hclen
  have hd : (y ++ '\n' :: t).drop clen = y.drop clen ++ '\n' :: t :=
    drop_append_le y _ clen h2
  have htk : (y ++ '\n' :: t).take clen = y.take clen :=
    take_append_le y _ clen h2
  rw [hd, htk]
  have hynl : '\n' ∉ y.drop clen := fun hm => hy (List.drop_subset _ _ hm)
  rw [closeSearch_append_nl (y.drop clen) t hynl ht]
  cases closeSearch (y.drop clen) with
  | none => rfl
  | some r =>
    simp only [Option.map_some']
    have h3 : clen + (r + nlExt t) = clen + r + nlExt t := by omega
    rw [h3]

theorem afterEq_append_nl (x t : Str) (hx : '\n' ∉ x) (hnw : ¬ allWs x)
    (ht : ∀ u, allWs u → closeSearch (u ++ '\n' :: t) = Option.none) :
    afterEq (x ++ '\n' :: t)
      = (afterEq x).map (fun p => (p.1, p.2 + nlExt t)) := by
  unfold afterEq
  have hlt := countWs_lt_of_not_allWs x hnw
  rw [countWs_append_of_lt x hlt _]
  refine firstSome_option_map _ _ _ _ ?_
  intro w2 hw2
  obtain ⟨h1, h2⟩ := (mem_countdownPos _ _).mp hw2
  have hle : w2 ≤ x.length := le_of_lt (lt_of_le_of_lt h2 hlt)
  have hd : (x ++ '\n' :: t).drop w2 = x.drop w2 ++ '\n' :: t :=
    drop_append_le x _ w2 hle
  rw [hd]
  have hynl : '\n' ∉ x.drop w2 := fun hm => hx (List.drop_subset _ _ hm)
  rw [capSearch_append_nl (x.drop w2) t hynl ht]
  cases capSearch (x.drop w2) with
  | none => rfl
  | some p =>
    simp only [Option.map_some']
    have h3 : w2 + (p.2 + nlExt t) = w2 + p.2 + nlExt t := by omega
    rw [h3]

theorem tryMatch_append_nl (l t : Str) (hl : '\n' ∉ l) (hnw : ¬ allWs l)
    (hst : strip l ≠ ['='])
    (ht : ∀ u, allWs u → closeSearch (u ++ '\n' :: t) = Option.none) :
    tryMatch (l ++ '\n' :: t)
      = (tryMatch l).map (fun p => (p.1, p.2 + nlExt t)) := by
  have hlt := countWs_lt_of_not_allWs l hnw
  obtain ⟨c, r, hd, hws⟩ := drop_countWs_head l hnw
  have hcwJ : countWs (l ++ '\n' :: t) = countWs l :=
    countWs_append_of_lt l hlt _
  have hdJ : (l ++ '\n' :: t).drop (countWs (l ++ '\n' :: t))
      = c :: (r ++ '\n' :: t) := by
    rw [hcwJ, drop_append_le l _ (countWs l) (le_of_lt hlt), hd]
    rfl
  rw [tryMatch_shape_cons _ c (r ++ '\n' :: t) hdJ,
    tryMatch_shape_cons l c r hd, hcwJ]
  by_cases hc : c = '='
  · simp only [if_pos hc]
    have hrnl : '\n' ∉ r := fun hm =>
      hl (mem_of_drop_eq l _ c r hd '\n' (List.mem_cons_of_mem _ hm))
    have hrnw : ¬ allWs r := by
      refine not_allWs_tail_of_strip_ne l c r hd hws ?_
      rw [hc]
      exact hst
    rw [afterEq_append_nl r t hrnl hrnw ht]
    cases afterEq r with
    | none => rfl
    | some p =>
      simp only [Option.map_some']
      have h3 : countWs l + 1 + (p.2 + nlExt t)
          = countWs l + 1 + p.2 + nlExt t := by omega
      rw [h3]
  · simp only [if_neg hc]
    rfl

theorem goScan_cons_succ (c : Char) (rest : Str) (skip : Nat) (b : Bool) :
    goScan (c :: rest) (skip + 1) b = goScan rest skip (decide (c = '\n')) :=
  rfl

theorem goScan_cons_true (c : Char) (rest : Str) :
    goScan (c :: rest) 0 true =
      (match tryMatch (c :: rest) with
       | some (cap, len) => cap :: goScan rest (len - 1) (decide (c = '\n'))
       | Option.none => goScan rest 0 (decide (c = '\n'))) :=
  rfl

theorem goScan_cons_false (c : Char) (rest : Str) :
    goScan (c :: rest) 0 false = goScan rest 0 (decide (c = '\n')) :=
  rfl

theorem lastFlag_cons (c : Char) (x : Str) (b : Bool) :
    lastFlag (c :: x) b = lastFlag x (decide (c = '\n')) := by
  cases x with
  | nil => rfl
  | cons d x' =>
    cases hgl : (d :: x').getLast? with
    | none => simp at hgl
    | some e => simp [lastFlag, List.getLast?_cons_cons, hgl]

theorem lastFlag_concat_nl (x : Str) (b : Bool) :
    lastFlag (x ++ ['\n']) b = true := by
  simp [lastFlag, List.getLast?_concat]

theorem goScan_skip_append (x y : Str) (k : Nat) (b : Bool) :
    goScan (x ++ y) (x.length + k) b = goScan y k (lastFlag x b) := by
  induction x generalizing b with
  | nil => simp [lastFlag]
  | cons c x' ih =>
    have h1 : (c :: x').length + k = (x'.length + k) + 1 := by
      rw [List.length_cons]
      omega
    rw [List.cons_append, h1, goScan_cons_succ, ih, lastFlag_cons]

theorem goScan_false_nonl (x : Str) (h : '\n' ∉ x) :
    goScan x 0 false = [] := by
  induction x with
  | nil => rfl
  | cons c x' ih =>
    have hc : ¬ c = '\n' := fun e => h (e ▸ List.mem_cons_self _ _)
    rw [goScan_cons_false, decide_eq_false hc]
    exact ih (fun m => h (List.mem_cons_of_mem _ m))

theorem goScan_cross_line (x y : Str) (h : '\n' ∉ x) :
    goScan (x ++ '\n' :: y) 0 false = goScan y 0 true := by
  induction x with
  | nil =>
    rw [List.nil_append, goScan_cons_false,
      decide_eq_true (rfl : '\n' = '\n')]
  | cons c x' ih =>
    have hc : ¬ c = '\n' := fun e => h (e ▸ List.mem_cons_self _ _)
    rw [List.cons_append, goScan_cons_false, decide_eq_false hc]
    exact ih (fun m => h (List.mem_cons_of_mem _ m))

theorem goScan_allWs (s : Str) (h : allWs s) :
    ∀ (skip : Nat) (b : Bool), goScan s skip b = [] := by
  induction s with
  | nil => intro skip b; rfl
  | cons c rest ih =>
    intro skip b
    have ih' := ih (fun d hd => h d (List.mem_cons_of_mem _ hd))
    cases skip with
    | succ n => rw [goScan_cons_succ]; exact ih' n _
    | zero =>
      cases b with
      | false => rw [goScan_cons_false]; exact ih' 0 _
      | true =>
        rw [goScan_cons_true, tryMatch_allWs (c :: rest) h]
        exact ih' 0 _

theorem goScan_attempt (J : Str) (cap : Str) (len : Nat)
    (htm : tryMatch J = some (cap, len)) (b : Bool) :
    goScan J 0 true = cap :: goScan J len b := by
  cases J with
  | nil => rw [tryMatch_nil] at htm; cases htm
  | cons d J' =>
    rw [goScan_cons_true, htm]
    obtain ⟨h1, _⟩ := tryMatch_bound _ _ _ htm
    obtain ⟨k, hk⟩ : ∃ k, len = k + 1 := ⟨len - 1, by omega⟩
    rw [hk, goScan_cons_succ]
    rfl

theorem scan_blank_peel (l : Str) (hl : allWs l) (hln : '\n' ∉ l) (J : Str) :
    goScan (l ++ '\n' :: J) 0 true = goScan J 0 true := by
  have hM : allWs (l ++ ['\n']) := by
    intro d hd
    rcases List.mem_append.mp hd with h1 | h2
    · exact hl d h1
    · rcases List.mem_cons.mp h2 with rfl | h3
      · decide
      · cases h3
  have heq : l ++ '\n' :: J = (l ++ ['\n']) ++ J := by simp
  have htmM := tryMatch_ws_append (l ++ ['\n']) hM J
  rw [← heq] at htmM
  cases htm : tryMatch J with
  | none =>
    rw [htm] at htmM
    simp only [Option.map_none'] at htmM
    cases l with
    | nil =>
      rw [List.nil_append] at htmM ⊢
      rw [goScan_cons_true, htmM, decide_eq_true (rfl : '\n' = '\n')]
    | cons c l' =>
      have hc : ¬ c = '\n' := fun e => hln (e ▸ List.mem_cons_self _ _)
      rw [List.cons_append] at htmM ⊢
      rw [goScan_cons_true, htmM, decide_eq_false hc]
      exact goScan_cross_line l' J (fun m => hln (List.mem_cons_of_mem _ m))
  | some p =>
    obtain ⟨cap, len⟩ := p
    rw [htm] at htmM
    simp only [Option.map_some'] at htmM
    rw [goScan_attempt (l ++ '\n' :: J) cap (len + (l ++ ['\n']).length)
      htmM true]
    rw [goScan_attempt J cap len htm true]
    congr 1
    rw [heq]
    have harith : len + (l ++ ['\n']).length = (l ++ ['\n']).length + len := by
      omega
    rw [harith, goScan_skip_append, lastFlag_concat_nl]

theorem lastFlag_no_nl (x : Str) (b : Bool) (h : '\n' ∉ x) (hne : x ≠ []) :
    lastFlag x b = false := by
  induction x generalizing b with
  | nil => exact absurd rfl hne
  | cons c x' ih =>
    rw [lastFlag_cons]
    cases x' with
    | nil =>
      have hc : ¬ c = '\n' := fun e => h (e ▸ List.mem_cons_self _ _)
      simp [lastFlag, decide_eq_false hc]
    | cons d x'' =>
      exact ih (decide (c = '\n')) (fun mm => h (List.mem_cons_of_mem _ mm))
        (by simp)

theorem scan_join (ls : List Str) :
    (∀ l ∈ ls, '\n' ∉ l) → (∀ l ∈ ls, strip l ≠ ['=']) →
    goScan (joinN ls) 0 true = ls.filterMap lineHeading ∧
    goScan (joinN ls) (extOf (joinN ls)) true = ls.filterMap lineHeading := by
  induction ls with
  | nil =>
    intro h1 h2
    exact ⟨rfl, rfl⟩
  | cons l ls' ih =>
    intro h1 h2
    have hl1 : '\n' ∉ l := h1 l (List.mem_cons_self _ _)
    have hl2 : strip l ≠ ['='] := h2 l (List.mem_cons_self _ _)
    have h1' : ∀ a ∈ ls', '\n' ∉ a := fun a ha => h1 a (List.mem_cons_of_mem _ ha)
    have h2' : ∀ a ∈ ls', strip a ≠ ['='] :=
      fun a ha => h2 a (List.mem_cons_of_mem _ ha)
    cases ls' with
    | nil =>
      rw [show joinN [l] = l from rfl]
      by_cases hw : allWs l
      · have hfm : List.filterMap lineHeading [l] = [] := by
          simp [List.filterMap_cons, lineHeading, tryMatch_allWs l hw]
        rw [hfm]
        exact ⟨goScan_allWs l hw 0 true, goScan_allWs l hw _ true⟩
      · have hext : extOf l = 0 := by
          have h := tailSearch_nonws_nil l hl1 hw
          simp [extOf, h]
        have hpart1 : goScan l 0 true = List.filterMap lineHeading [l] := by
          cases htm : tryMatch l with
          | none =>
            have hfm : List.filterMap lineHeading [l] = [] := by
              simp [List.filterMap_cons, lineHeading, htm]
            rw [hfm]
            cases l with
            | nil => rfl
            | cons c l'' =>
              have hc : ¬ c = '\n' := fun e => hl1 (e ▸ List.mem_cons_self _ _)
              rw [goScan_cons_true, htm, decide_eq_false hc]
              exact goScan_false_nonl l'' (fun m => hl1 (List.mem_cons_of_mem _ m))
          | some p =>
            obtain ⟨cap, len⟩ := p
            have hfm : List.filterMap lineHeading [l] = [cap] := by
              simp [List.filterMap_cons, lineHeading, htm]
            rw [hfm]
            have hflen : len = l.length := tryMatch_isolated_full l hl1 cap len htm
            rw [goScan_attempt l cap len htm true]
            congr 1
            rw [hflen]
            have h3 := goScan_skip_append l [] 0 true
            simp only [List.append_nil, Nat.add_zero] at h3
            rw [h3]
            rfl
        exact ⟨hpart1, by rw [hext]; exact hpart1⟩
    | cons m ms =>
      have hjn : joinN (l :: m :: ms) = l ++ '\n' :: joinN (m :: ms) := rfl
      have ihm := ih h1' h2'
      have ht : ∀ x, allWs x →
          closeSearch (x ++ '\n' :: joinN (m :: ms)) = Option.none :=
        closeSearch_ws_join (m :: ms) h1' h2'
      rw [hjn]
      by_cases hw : allWs l
      · have hfm : List.filterMap lineHeading (l :: m :: ms)
            = List.filterMap lineHeading (m :: ms) := by
          simp [List.filterMap_cons, lineHeading, tryMatch_allWs l hw]
        rw [hfm]
        constructor
        · rw [scan_blank_peel l hw hl1 (joinN (m :: ms))]
          exact ihm.1
        · have hts : tailSearch (l ++ '\n' :: joinN (m :: ms))
              = some (l.length + nlExt (joinN (m :: ms))) :=
            tailSearch_ws_nl l _ hw
          have hext : extOf (l ++ '\n' :: joinN (m :: ms))
              = l.length + nlExt (joinN (m :: ms)) := by simp [extOf, hts]
          rw [hext]
          cases htsJ : tailSearch (joinN (m :: ms)) with
          | none =>
            have hnl0 : nlExt (joinN (m :: ms)) = 0 := by simp [nlExt, htsJ]
            rw [hnl0]
            cases l with
            | nil =>
              have hsp := scan_blank_peel [] allWs_nil
                (List.not_mem_nil '\n') (joinN (m :: ms))
              rw [List.nil_append] at hsp
              simp only [List.nil_append, List.length_nil, Nat.add_zero]
              rw [hsp]
              exact ihm.1
            | cons c l'' =>
              rw [goScan_skip_append (c :: l'') ('\n' :: joinN (m :: ms)) 0 true]
              rw [lastFlag_no_nl (c :: l'') true hl1 (by simp)]
              rw [goScan_cons_false, decide_eq_true (rfl : '\n' = '\n')]
              exact ihm.1
          | some e =>
            have hnl : nlExt (joinN (m :: ms)) = e + 1 := by simp [nlExt, htsJ]
            rw [hnl]
            have heq2 : l ++ '\n' :: joinN (m :: ms)
                = (l ++ ['\n']) ++ joinN (m :: ms) := by simp
            have harith : l.length + (e + 1) = (l ++ ['\n']).length + e := by
              simp
              omega
            rw [heq2, harith, goScan_skip_append, lastFlag_concat_nl]
            have hextJ : extOf (joinN (m :: ms)) = e := by simp [extOf, htsJ]
            rw [← hextJ]
            exact ihm.2
      · have hts0 : tailSearch (l ++ '\n' :: joinN (m :: ms)) = Option.none :=
          tailSearch_nonws l ('\n' :: joinN (m :: ms)) hl1 hw
        have hext0 : extOf (l ++ '\n' :: joinN (m :: ms)) = 0 := by
          simp [extOf, hts0]
        have htmJ := tryMatch_append_nl l (joinN (m :: ms)) hl1 hw hl2 ht
        have hpart1 : goScan (l ++ '\n' :: joinN (m :: ms)) 0 true
            = List.filterMap lineHeading (l :: m :: ms) := by
          cases htm : tryMatch l with
          | none =>
            rw [htm] at htmJ
            simp only [Option.map_none'] at htmJ
            have hfm : List.filterMap lineHeading (l :: m :: ms)
                = List.filterMap lineHeading (m :: ms) := by
              simp [List.filterMap_cons, lineHeading, htm]
            rw [hfm]
            cases l with
            | nil => exact absurd allWs_nil hw
            | cons c l'' =>
              have hc : ¬ c = '\n' := fun e => hl1 (e ▸ List.mem_cons_self _ _)
              rw [List.cons_append] at htmJ ⊢
              rw [goScan_cons_true, htmJ, decide_eq_false hc]
              show goScan (l'' ++ '\n' :: joinN (m :: ms)) 0 false
                  = List.filterMap lineHeading (m :: ms)
              rw [goScan_cross_line l'' (joinN (m :: ms))
                (fun mm => hl1 (List.mem_cons_of_mem _ mm))]
              exact ihm.1
          | some p =>
            obtain ⟨cap, len⟩ := p
            rw [htm] at htmJ
            simp only [Option.map_some'] at htmJ
            have hflen : len = l.length := tryMatch_isolated_full l hl1 cap len htm
            have hfm : List.filterMap lineHeading (l :: m :: ms)
                = cap :: List.filterMap lineHeading (m :: ms) := by
              simp [List.filterMap_cons, lineHeading, htm]
            rw [hfm]
            rw [goScan_attempt (l ++ '\n' :: joinN (m :: ms)) cap
              (len + nlExt (joinN (m :: ms))) htmJ true]
            congr 1
            rw [hflen]
            cases htsJ : tailSearch (joinN (m :: ms)) with
            | none =>
              have hnl0 : nlExt (joinN (m :: ms)) = 0 := by simp [nlExt, htsJ]
              rw [hnl0]
              cases l with
              | nil => exact absurd allWs_nil hw
              | cons c l'' =>
                rw [goScan_skip_append (c :: l'') ('\n' :: joinN (m :: ms)) 0 true]
                rw [lastFlag_no_nl (c :: l'') true hl1 (by simp)]
                rw [goScan_cons_false, decide_eq_true (rfl : '\n' = '\n')]
                exact ihm.1
            | some e =>
              have hnl : nlExt (joinN (m :: ms)) = e + 1 := by simp [nlExt, htsJ]
              rw [hnl]
              have heq2 : l ++ '\n' :: joinN (m :: ms)
                  = (l ++ ['\n']) ++ joinN (m :: ms) := by simp
              have harith : l.length + (e + 1) = (l ++ ['\n']).length + e := by
                simp
                omega
              rw [heq2, harith, goScan_skip_append, lastFlag_concat_nl]
              have hextJ : extOf (joinN (m :: ms)) = e := by simp [extOf, htsJ]
              rw [← hextJ]
              exact ihm.2
        exact ⟨hpart1, by rw [hext0]; exact hpart1⟩

theorem sl_red_nl (cur rest : Str) :
    splitlinesGo cur ('\n' :: rest) = cur.reverse :: splitlinesGo [] rest := rfl

theorem sl_red_crnl (cur rest : Str) :
    splitlinesGo cur ('\r' :: '\n' :: rest)
      = cur.reverse :: splitlinesGo [] rest := rfl

theorem sl_red_cr1 (cur : Str) :
    splitlinesGo cur ['\r'] = [cur.reverse] := rfl

theorem sl_red_cr (cur : Str) (d : Char) (rest : Str) (hd : ¬ d = '\n') :
    splitlinesGo cur ('\r' :: d :: rest)
      = cur.reverse :: splitlinesGo [] (d :: rest) := by
  simp [splitlinesGo, hd]

theorem sl_red_other (cur : Str) (c : Char) (rest : Str) (h1 : ¬ c = '\n')
    (h2 : ¬ c = '\r') :
    splitlinesGo cur (c :: rest) = splitlinesGo (c :: cur) rest := by
  simp [splitlinesGo, h1, h2]

theorem splitlinesGo_nil_mem (cur : Str) (l : Str)
    (hl : l ∈ splitlinesGo cur []) : l = cur.reverse := by
  by_cases hc : cur = []
  · subst hc
    cases hl
  · rw [show splitlinesGo cur [] = [cur.reverse] by simp [splitlinesGo, hc]] at hl
    rcases List.mem_cons.mp hl with rfl | h2
    · rfl
    · cases h2

theorem splitlinesGo_no_nl (n : Nat) : ∀ s : Str, s.length ≤ n →
    ∀ cur : Str, '\n' ∉ cur → ∀ l ∈ splitlinesGo cur s, '\n' ∉ l := by
  induction n with
  | zero =>
    intro s hs cur hcur l hl
    have hsn : s = [] := by
      cases s with
      | nil => rfl
      | cons c r => simp at hs
    subst hsn
    rw [splitlinesGo_nil_mem cur l hl]
    exact fun hm => hcur (List.mem_reverse.mp hm)
  | succ n ihn =>
    intro s hs cur hcur l hl
    cases s with
    | nil =>
      rw [splitlinesGo_nil_mem cur l hl]
      exact fun hm => hcur (List.mem_reverse.mp hm)
    | cons c rest =>
      have hs' : rest.length ≤ n := by
        simp only [List.length_cons] at hs
        omega
      by_cases hcn : c = '\n'
      · subst hcn
        rw [sl_red_nl] at hl
        rcases List.mem_cons.mp hl with rfl | hl2
        · exact fun hm => hcur (List.mem_reverse.mp hm)
        · exact ihn rest hs' [] (List.not_mem_nil _) l hl2
      · by_cases hcr : c = '\r'
        · subst hcr
          cases rest with
          | nil =>
            rw [sl_red_cr1] at hl
            rcases List.mem_cons.mp hl with rfl | hl2
            · exact fun hm => hcur (List.mem_reverse.mp hm)
            · cases hl2
          | cons d rest' =>
            have hr' : rest'.length ≤ n := by
              simp only [List.length_cons] at hs
              omega
            by_cases hdn : d = '\n'
            · subst hdn
              rw [sl_red_crnl] at hl
              rcases List.mem_cons.mp hl with rfl | hl2
              · exact fun hm => hcur (List.mem_reverse.mp hm)
              · exact ihn rest' hr' [] (List.not_mem_nil _) l hl2
            · rw [sl_red_cr cur d rest' hdn] at hl
              rcases List.mem_cons.mp hl with rfl | hl2
              · exact fun hm => hcur (List.mem_reverse.mp hm)
              · exact ihn (d :: rest') hs' [] (List.not_mem_nil _) l hl2
        · rw [sl_red_other cur c rest hcn hcr] at hl
          have hcur' : '\n' ∉ c :: cur := by
            intro hm
            rcases List.mem_cons.mp hm with he | h2
            · exact hcn he.symm
            · exact hcur h2
          exact ihn rest hs' (c :: cur) hcur' l hl

theorem pySplitlines_no_nl (s : Str) : ∀ l ∈ pySplitlines s, '\n' ∉ l :=
  fun l hl =>
    splitlinesGo_no_nl s.length s (le_refl _) [] (List.not_mem_nil _) l hl

theorem reFindAllHeadings_eq_spec (doc : Str)
    (hjoin : joinN (pySplitlines doc) = doc)
    (h2 : ∀ l ∈ pySplitlines doc, strip l ≠ ['=']) :
    reFindAllHeadings doc = specHeadings doc := by
  have h1 := pySplitlines_no_nl doc
  have h := (scan_join (pySplitlines doc) h1 h2).1
  rw [hjoin] at h
  exact h

/-- Claim C3 is refuted: the heading regex scans the whole text, and with
`re.MULTILINE` a match may span a line break inside one of its whitespace
runs, so the TOC can list a "heading" that is not any single line of the
form `= heading =`.  In `"= A \n=\n%TOC%"` no line matches the pattern in
isolation (the per-line reading collects nothing), yet the whole-text scan
captures `A` across the first two lines, so the produced document differs
from the claimed output. -/
theorem c3_toc_counterexample :
    ({ _doc := "= A \n=\n%TOC%".toList } : LibraryDoc).doc_format
        = "ROBOT".toList ∧
    isSubstr "%TOC%".toList
        ({ _doc := "= A \n=\n%TOC%".toList } : LibraryDoc)._doc = true ∧
    reFindAllHeadings "= A \n=\n%TOC%".toList = ["A".toList] ∧
    specHeadings "= A \n=\n%TOC%".toList = [] ∧
    LibraryDoc.doc { _doc := "= A \n=\n%TOC%".toList }
      ≠ claimDocOutput "= A \n=\n%TOC%".toList
          (!({ _doc := "= A \n=\n%TOC%".toList } : LibraryDoc).inits.isEmpty) := by
  decide

/-- Claim C3 (amended): for a library in ROBOT doc format whose raw text
contains a `%TOC%` marker, provided the text is exactly the `'\n'`-join of
its lines (no `'\r'` boundaries, no trailing line break) and no line
strips to a bare `"="`, the generated document equals the claimed output:
the TOC block lists every per-line heading `= heading =` in order of
appearance anywhere in the text, then `Importing` iff there is at least
one init, then always `Keywords` and `Data types`, and every line whose
stripped content is `%TOC%` is replaced by that identical block while all
other lines pass through unchanged.  (Without the no-bare-`"="`-line
proviso the regex can match across line breaks, as the counterexample
shows.) -/
theorem c3_toc_amended (lib : LibraryDoc)
    (hfmt : lib.doc_format = "ROBOT".toList)
    (hsub : isSubstr "%TOC%".toList lib._doc = true)
    (hjoin : joinN (pySplitlines lib._doc) = lib._doc)
    (hstrip : ∀ l ∈ pySplitlines lib._doc, strip l ≠ ['=']) :
    LibraryDoc.doc lib = claimDocOutput lib._doc (!lib.inits.isEmpty) := by
  have hcond : (lib.doc_format = "ROBOT".toList
      && isSubstr "%TOC%".toList lib._doc) = true := by
    rw [decide_eq_true hfmt, hsub]
    rfl
  unfold LibraryDoc.doc
  rw [if_pos hcond]
  unfold LibraryDoc.add_toc LibraryDoc.create_toc claimDocOutput
    renderTocEntries claimTocEntries
  rw [reFindAllHeadings_eq_spec lib._doc hjoin hstrip]
  cases hin : lib.inits.isEmpty <;> simp

/-- Witness for `c3_toc_amended` at a concrete library whose raw text has
the marker on the first line and a heading after it. -/
theorem c3_toc_amended_witness :
    (({ _doc := "%TOC%\n= Usage =".toList } : LibraryDoc).doc_format
        = "ROBOT".toList) ∧
    (isSubstr "%TOC%".toList "%TOC%\n= Usage =".toList = true) ∧
    (joinN (pySplitlines "%TOC%\n= Usage =".toList)
        = "%TOC%\n= Usage =".toList) ∧
    (∀ l ∈ pySplitlines "%TOC%\n= Usage =".toList, strip l ≠ ['=']) ∧
    LibraryDoc.doc { _doc := "%TOC%\n= Usage =".toList }
      = claimDocOutput "%TOC%\n= Usage =".toList
          (!({ _doc := "%TOC%\n= Usage =".toList } : LibraryDoc).inits.isEmpty) :=
  ⟨by decide, by decide, by decide, by decide,
    c3_toc_amended { _doc := "%TOC%\n= Usage =".toList }
      (by decide) (by decide) (by decide) (by decide)⟩

end Libdoc
